import Mathlib

/-!
Verification development for the Ready Trader One matching-engine core.

The definitions below are a shallow embedding of the Python sources
(`ready_trader_one/order_book.py`, `account.py`, `competitor.py`,
`limiter.py`).  Machine integers are modelled as `Int` (Python integers are
unbounded), floating-point rates/times as `Rat`, and Python `round`
(round-half-to-even) as `roundHalfEven` on exact rationals.  Operations that
can raise in Python (`IndexError`, `KeyError`, popping an empty list,
dividing by a zero tick size, using a `None` price) return `Option` and
yield `none` exactly where the Python code would raise.  Python `dict`s are
modelled as key-sorted association lists (equal as maps); listener callbacks
are modelled as emitted event lists (orders in this model always carry a
listener).
-/

/-- Python `round` on an exactly-represented value: round half to even. -/
def roundHalfEven (q : ℚ) : ℤ :=
  let f : ℤ := ⌊q⌋
  let r : ℚ := q - (f : ℚ)
  if r < 1 / 2 then f
  else if 1 / 2 < r then f + 1
  else if f % 2 = 0 then f else f + 1

/-- `bisect.insort_left` on a sorted list: insert before any equal elements. -/
def insort_left (l : List ℤ) (x : ℤ) : List ℤ :=
  match l with
  | [] => [x]
  | y :: ys => if y < x then y :: insort_left ys x else x :: y :: ys

/-- `bisect.insort` (= `insort_right`) on a sorted list: insert after equals. -/
def insort_right (l : List ℤ) (x : ℤ) : List ℤ :=
  match l with
  | [] => [x]
  | y :: ys => if x < y then x :: y :: ys else y :: insort_right ys x

/-- `bisect.bisect` (= `bisect_right`) on a sorted list: the number of
elements `≤ x` (for a sorted list this is what the binary search returns). -/
def bisect_right (l : List ℤ) (x : ℤ) : ℕ :=
  (l.takeWhile (fun y => decide (y ≤ x))).length

/-- Python `list.pop(i)`: negative indices wrap once; out-of-range raises. -/
def pyPopAt (l : List ℤ) (i : ℤ) : Option (List ℤ) :=
  let j : ℤ := if i < 0 then i + l.length else i
  if 0 ≤ j ∧ j < (l.length : ℤ) then some (l.eraseIdx j.toNat) else none

/-- Lookup in a `dict` modelled as an association list. -/
def dictGet {α : Type} (m : List (ℤ × α)) (k : ℤ) : Option α :=
  match m with
  | [] => none
  | (k0, v0) :: rest => if k0 = k then some v0 else dictGet rest k

/-- `d[k] = v` on a key-sorted association list (keeps the canonical order). -/
def dictSet {α : Type} (m : List (ℤ × α)) (k : ℤ) (v : α) : List (ℤ × α) :=
  match m with
  | [] => [(k, v)]
  | (k0, v0) :: rest =>
    if k < k0 then (k, v) :: (k0, v0) :: rest
    else if k0 = k then (k, v) :: rest
    else (k0, v0) :: dictSet rest k v

/-- `del d[k]` on an association list (a dict never has duplicate keys). -/
def dictErase {α : Type} (m : List (ℤ × α)) (k : ℤ) : List (ℤ × α) :=
  m.filter (fun kv => decide (kv.1 ≠ k))

/-! ## Enumerations (`types.py`) -/

inductive Side where
  | SELL
  | BUY
deriving DecidableEq

inductive Lifespan where
  | FILL_AND_KILL
  | GOOD_FOR_DAY
deriving DecidableEq

inductive Instrument where
  | FUTURE
  | ETF
deriving DecidableEq

/-! ## Orders, levels and the order book (`order_book.py`) -/

def MINIMUM_BID : ℤ := 0

def MAXIMUM_ASK : ℤ := 2 ^ 32 - 1

/-- `Order.__init__`: `remaining_volume` starts equal to `volume` and
`total_fees` at zero; the listener is modelled by the emitted events. -/
structure Order where
  client_order_id : ℤ
  instrument : Instrument
  lifespan : Lifespan
  side : Side
  price : ℤ
  remaining_volume : ℤ
  total_fees : ℤ
  volume : ℤ
deriving DecidableEq

/-- A price level: FIFO queue of orders plus their tracked total volume. -/
structure Level where
  order_queue : List Order
  total_volume : ℤ
deriving DecidableEq

/-- One listener callback (the `order` field is the order object as the
callback observes it, i.e. after the in-place updates preceding the call). -/
inductive BookEvent where
  | orderAmended (order : Order) (volumeRemoved : ℤ)
  | orderCancelled (order : Order) (volumeRemoved : ℤ)
  | orderPlaced (order : Order)
  | orderFilled (order : Order) (price : ℤ) (volume : ℤ) (fee : ℤ)
  | trade (instrument : Instrument) (price : ℤ) (volume : ℤ)
deriving DecidableEq

def BookEvent.isPlaced : BookEvent → Bool
  | .orderPlaced _ => true
  | _ => false

def BookEvent.isTrade : BookEvent → Bool
  | .trade _ _ _ => true
  | _ => false

def BookEvent.isFillOrTrade : BookEvent → Bool
  | .orderFilled _ _ _ _ => true
  | .trade _ _ _ => true
  | _ => false

/-- The client order id carried by a fill callback, if the event is one. -/
def BookEvent.fillCid : BookEvent → Option ℤ
  | .orderFilled p _ _ _ => some p.client_order_id
  | _ => none

structure OrderBook where
  ask_prices : List ℤ
  bid_prices : List ℤ
  instrument : Instrument
  last_traded_price : Option ℤ
  levels : List (ℤ × Level)
  maker_fee : ℚ
  taker_fee : ℚ
deriving DecidableEq

/-- A fresh book: one sentinel on each side, as in `OrderBook.__init__`. -/
def OrderBook.new (instrument : Instrument) (maker_fee taker_fee : ℚ) : OrderBook :=
  { ask_prices := [-MAXIMUM_ASK]
    bid_prices := [MINIMUM_BID]
    instrument := instrument
    last_traded_price := none
    levels := [(MINIMUM_BID, ⟨[], 0⟩), (MAXIMUM_ASK, ⟨[], 0⟩)]
    maker_fee := maker_fee
    taker_fee := taker_fee }

/-! ## The account (`account.py`) -/

structure CompetitorAccount where
  account_balance : ℤ
  buy_volume : ℤ
  etf_clamp : ℚ
  etf_position : ℤ
  future_position : ℤ
  max_drawdown : ℤ
  max_profit : ℤ
  profit_or_loss : ℤ
  sell_volume : ℤ
  tick_size : ℤ
  total_fees : ℤ
deriving DecidableEq

/-- `CompetitorAccount.__init__` (the tick size is given directly in cents,
the source computes it as `int(tick_size * 100.0)`). -/
def initialAccount (tick_size : ℤ) (etf_clamp : ℚ) : CompetitorAccount :=
  { account_balance := 0
    buy_volume := 0
    etf_clamp := etf_clamp
    etf_position := 0
    future_position := 0
    max_drawdown := 0
    max_profit := 0
    profit_or_loss := 0
    sell_volume := 0
    tick_size := tick_size
    total_fees := 0 }

/-- `CompetitorAccount.transact`. -/
def CompetitorAccount.transact (a : CompetitorAccount) (instrument : Instrument)
    (side : Side) (price volume fee : ℤ) : CompetitorAccount :=
  let bal := if side = Side.SELL then a.account_balance + price * volume
             else a.account_balance - price * volume
  let a1 := { a with account_balance := bal - fee, total_fees := a.total_fees + fee }
  if instrument = Instrument.FUTURE then
    if side = Side.SELL then { a1 with future_position := a1.future_position - volume }
    else { a1 with future_position := a1.future_position + volume }
  else
    if side = Side.SELL then
      { a1 with sell_volume := a1.sell_volume + volume,
                etf_position := a1.etf_position - volume }
    else
      { a1 with buy_volume := a1.buy_volume + volume,
                etf_position := a1.etf_position + volume }

/-- `CompetitorAccount.mark_to_market` (`%` on `Int` matches Python `%` for a
positive modulus; a zero tick size would raise in Python, theorems about this
function therefore assume `0 < tick_size`). -/
def CompetitorAccount.mark_to_market (a : CompetitorAccount)
    (future_price etf_price : ℤ) : CompetitorAccount :=
  let delta0 : ℤ := roundHalfEven (a.etf_clamp * (future_price : ℚ))
  let delta : ℤ := delta0 - delta0 % a.tick_size
  let min_price : ℤ := future_price - delta
  let max_price : ℤ := future_price + delta
  let clamped : ℤ :=
    if etf_price < min_price then min_price
    else if max_price < etf_price then max_price
    else etf_price
  let pnl : ℤ := a.account_balance + a.future_position * future_price
      + a.etf_position * clamped
  let mp : ℤ := if a.max_profit < pnl then pnl else a.max_profit
  let dd : ℤ := if a.max_drawdown < mp - pnl then mp - pnl else a.max_drawdown
  { a with profit_or_loss := pnl, max_profit := mp, max_drawdown := dd }

/-! ## The frequency limiter (`limiter.py`) -/

/-- `sys.float_info.epsilon` is exactly `2 ^ (-52)`. -/
def machineEps : ℚ := 1 / 2 ^ 52

structure FrequencyLimiter where
  events : List ℚ
  interval : ℚ
  limit : ℤ
  value : ℤ
deriving DecidableEq

/-- The head-eviction condition of `FrequencyLimiter.check_event`:
`(t - window_start) <= max(t, window_start) * epsilon`. -/
def evictCond (interval now t : ℚ) : Prop :=
  t - (now - interval) ≤ (if now - interval < t then t else now - interval) * machineEps

instance (interval now t : ℚ) : Decidable (evictCond interval now t) := by
  unfold evictCond; infer_instance

/-- The eviction loop: pop the head while it satisfies the condition; reading
the head of an emptied deque raises (`none`). -/
def evictGo (interval now : ℚ) : List ℚ → Option (List ℚ)
  | [] => none
  | t :: ts =>
    if evictCond interval now t then evictGo interval now ts else some (t :: ts)

/-- `FrequencyLimiter.check_event`. -/
def FrequencyLimiter.check_event (fl : FrequencyLimiter) (now : ℚ) :
    Option (FrequencyLimiter × Bool) :=
  let appended := fl.events ++ [now]
  match evictGo fl.interval now appended with
  | none => none
  | some kept =>
    let value2 : ℤ := fl.value + 1 - ((appended.length : ℤ) - (kept.length : ℤ))
    some ({ fl with events := kept, value := value2 }, decide (fl.limit < value2))

/-! ## Matching (`OrderBook.trade_level` and friends)

The Python inner loop of `trade_level` interleaves two `while` loops:
it lazily pops zero-remaining queue heads, then trades the head against
the aggressor.  The recursion below is the same loop reorganised so that
it is structural on the queue: when the loop is going to run another
iteration (`0 < rem - v ∧ 0 < total - v`), the head passive order has
necessarily just been consumed in full (`v` equals its remaining volume),
so it is the zero-remaining head that the next Python iteration pops; we
therefore recurse directly on the tail.  When the loop stops instead, the
updated head (possibly with zero remaining volume) stays in the queue,
exactly as in the source.  Reading the head of an empty queue raises
(`none`). -/

def tradeLoopGo (maker : ℚ) (price : ℤ) (rem total : ℤ) :
    List Order → Option (ℤ × ℤ × List Order × List BookEvent)
  | [] =>
    if 0 < rem ∧ 0 < total then none
    else some (rem, total, [], [])
  | p :: rest =>
    if 0 < rem ∧ 0 < total then
      if p.remaining_volume = 0 then
        tradeLoopGo maker price rem total rest
      else
        let v : ℤ := if rem < p.remaining_volume then rem else p.remaining_volume
        let fee : ℤ := roundHalfEven ((price : ℚ) * (v : ℚ) * maker)
        let p' : Order := { p with remaining_volume := p.remaining_volume - v,
                                   total_fees := p.total_fees + fee }
        let ev : BookEvent := BookEvent.orderFilled p' price v fee
        if 0 < rem - v ∧ 0 < total - v then
          match tradeLoopGo maker price (rem - v) (total - v) rest with
          | none => none
          | some (r, t, q, evs) => some (r, t, q, ev :: evs)
        else
          some (rem - v, total - v, p' :: rest, [ev])
    else
      some (rem, total, p :: rest, [])

/-- The body of `OrderBook.trade_level` minus the fields it reads from
`self` (fee rates, instrument): the loop, then the aggressor's fee and
fill callback and the book-wide trade callback. -/
def trade_level_core (maker taker : ℚ) (instr : Instrument) (order : Order)
    (level : Level) (best_price : ℤ) : Option (Order × Level × List BookEvent) :=
  match tradeLoopGo maker best_price order.remaining_volume level.total_volume
      level.order_queue with
  | none => none
  | some (remaining, total_volume, queue, evs) =>
    let traded : ℤ := order.remaining_volume - remaining
    let fee : ℤ := roundHalfEven ((best_price : ℚ) * (traded : ℚ) * taker)
    let order' : Order := { order with remaining_volume := remaining,
                                       total_fees := order.total_fees + fee }
    let level' : Level := { level with order_queue := queue, total_volume := total_volume }
    some (order', level',
      evs ++ [BookEvent.orderFilled order' best_price traded fee,
              BookEvent.trade instr best_price traded])

/-- `OrderBook.trade_level`: runs the core and records the last traded
price (the caller owns writing the mutated level back into the dict, which
in Python happens through aliasing). -/
def OrderBook.trade_level (b : OrderBook) (order : Order) (level : Level)
    (best_price : ℤ) : Option (OrderBook × Order × Level × List BookEvent) :=
  match trade_level_core b.maker_fee b.taker_fee b.instrument order level best_price with
  | none => none
  | some (order', level', evs) =>
    some ({ b with last_traded_price := some best_price }, order', level', evs)

/-- The `while` loop of `OrderBook.trade_ask`, walking bid levels from the
best downward.  The price list is passed reversed (best price first), so
Python's tail access `bid_prices[-1]` is the head and `bid_prices.pop()` is
the tail; the recursion happens exactly in the pop branch, because after
`trade_level` returns, the loop guard can only still hold if the level
emptied and its price was popped. -/
def tradeAskGo (maker taker : ℚ) (instr : Instrument) :
    List ℤ → List (ℤ × Level) → Option ℤ → Order →
    Option (List ℤ × List (ℤ × Level) × Option ℤ × Order × List BookEvent)
  | [], _, _, _ => none
  | best_bid :: revRest, levels, ltp, order =>
    match dictGet levels best_bid with
    | none => none
    | some level =>
      if 0 < order.remaining_volume ∧ order.price ≤ best_bid ∧ 0 < level.total_volume then
        match trade_level_core maker taker instr order level best_bid with
        | none => none
        | some (o1, lvl1, evs) =>
          let levels1 := dictSet levels best_bid lvl1
          if lvl1.total_volume = 0 ∧ MINIMUM_BID < best_bid then
            match tradeAskGo maker taker instr revRest
                (dictErase levels1 best_bid) (some best_bid) o1 with
            | none => none
            | some (bp2, lv2, ltp2, o2, evs2) => some (bp2, lv2, ltp2, o2, evs ++ evs2)
          else
            some (best_bid :: revRest, levels1, some best_bid, o1, evs)
      else
        some (best_bid :: revRest, levels, ltp, order, [])

/-- The `while` loop of `OrderBook.trade_bid`, walking ask levels from the
best upward (ask prices are stored negated; the list is passed reversed,
most aggressive first). -/
def tradeBidGo (maker taker : ℚ) (instr : Instrument) :
    List ℤ → List (ℤ × Level) → Option ℤ → Order →
    Option (List ℤ × List (ℤ × Level) × Option ℤ × Order × List BookEvent)
  | [], _, _, _ => none
  | neg_ask :: revRest, levels, ltp, order =>
    let best_ask : ℤ := -neg_ask
    match dictGet levels best_ask with
    | none => none
    | some level =>
      if 0 < order.remaining_volume ∧ best_ask ≤ order.price ∧ 0 < level.total_volume then
        match trade_level_core maker taker instr order level best_ask with
        | none => none
        | some (o1, lvl1, evs) =>
          let levels1 := dictSet levels best_ask lvl1
          if lvl1.total_volume = 0 ∧ best_ask < MAXIMUM_ASK then
            match tradeBidGo maker taker instr revRest
                (dictErase levels1 best_ask) (some best_ask) o1 with
            | none => none
            | some (ap2, lv2, ltp2, o2, evs2) => some (ap2, lv2, ltp2, o2, evs ++ evs2)
          else
            some (neg_ask :: revRest, levels1, some best_ask, o1, evs)
      else
        some (neg_ask :: revRest, levels, ltp, order, [])

/-- `OrderBook.trade_ask` (the reversal mediates between the stored
ascending list and the loop's best-first traversal). -/
def OrderBook.trade_ask (b : OrderBook) (order : Order) :
    Option (OrderBook × Order × List BookEvent) :=
  match tradeAskGo b.maker_fee b.taker_fee b.instrument b.bid_prices.reverse b.levels
      b.last_traded_price order with
  | none => none
  | some (bp, lv, ltp, o', evs) =>
    some ({ b with bid_prices := bp.reverse, levels := lv, last_traded_price := ltp },
      o', evs)

/-- `OrderBook.trade_bid`. -/
def OrderBook.trade_bid (b : OrderBook) (order : Order) :
    Option (OrderBook × Order × List BookEvent) :=
  match tradeBidGo b.maker_fee b.taker_fee b.instrument b.ask_prices.reverse b.levels
      b.last_traded_price order with
  | none => none
  | some (ap, lv, ltp, o', evs) =>
    some ({ b with ask_prices := ap.reverse, levels := lv, last_traded_price := ltp },
      o', evs)

/-- `OrderBook.place`. -/
def OrderBook.place (b : OrderBook) (order : Order) : OrderBook × List BookEvent :=
  match dictGet b.levels order.price with
  | none =>
    let level : Level := ⟨[order], order.remaining_volume⟩
    let b' :=
      if order.side = Side.SELL then
        { b with ask_prices := insort_left b.ask_prices (-order.price) }
      else
        { b with bid_prices := insort_left b.bid_prices order.price }
    ({ b' with levels := dictSet b'.levels order.price level },
     [BookEvent.orderPlaced order])
  | some level =>
    let level' : Level := { level with
      order_queue := level.order_queue ++ [order],
      total_volume := level.total_volume + order.remaining_volume }
    ({ b with levels := dictSet b.levels order.price level' },
     [BookEvent.orderPlaced order])

/-- `OrderBook.remove_volume_from_level`. -/
def OrderBook.remove_volume_from_level (b : OrderBook) (price volume : ℤ)
    (side : Side) : Option OrderBook :=
  match dictGet b.levels price with
  | none => none
  | some level =>
    if level.total_volume = volume then
      let levels' := dictErase b.levels price
      if side = Side.SELL ∧ price < MAXIMUM_ASK then
        match pyPopAt b.ask_prices ((bisect_right b.ask_prices (-price) : ℤ) - 1) with
        | none => none
        | some l' => some ({ b with levels := levels', ask_prices := l' })
      else if side = Side.BUY ∧ MINIMUM_BID < price then
        match pyPopAt b.bid_prices ((bisect_right b.bid_prices price : ℤ) - 1) with
        | none => none
        | some l' => some ({ b with levels := levels', bid_prices := l' })
      else
        some ({ b with levels := levels' })
    else
      let level' : Level := { level with total_volume := level.total_volume - volume }
      some ({ b with levels := dictSet b.levels price level' })

/-- `OrderBook.amend`. -/
def OrderBook.amend (b : OrderBook) (order : Order) (new_volume : ℤ) :
    Option (OrderBook × Order × List BookEvent) :=
  if 0 < order.remaining_volume then
    let fill_volume : ℤ := order.volume - order.remaining_volume
    let diff : ℤ := order.volume -
      (if new_volume < fill_volume then fill_volume else new_volume)
    match b.remove_volume_from_level order.price diff order.side with
    | none => none
    | some b' =>
      let order' : Order := { order with volume := order.volume - diff,
                                         remaining_volume := order.remaining_volume - diff }
      some (b', order', [BookEvent.orderAmended order' diff])
  else
    some (b, order, [])

/-- `OrderBook.cancel`.  In Python the order object is shared with the level
queue, so zeroing `remaining_volume` is also visible in the queue entry; in
this value-based model the returned order carries the update while a stale
queue entry keeps its old value.  Theorems about matching therefore quantify
over arbitrary queue contents (Python-reachable queues, where such entries
have zero remaining volume, are instances). -/
def OrderBook.cancel (b : OrderBook) (order : Order) :
    Option (OrderBook × Order × List BookEvent) :=
  if 0 < order.remaining_volume then
    match b.remove_volume_from_level order.price order.remaining_volume order.side with
    | none => none
    | some b' =>
      let order' : Order := { order with remaining_volume := 0 }
      some (b', order', [BookEvent.orderCancelled order' order.remaining_volume])
  else
    some (b, order, [])

/-- The cross-check-and-trade step of `OrderBook.insert` (lines 144-147).
Note that the buy-side cross test of the source compares against the raw
(negated) stored ask price, so a buy aggressor usually enters `trade_bid`,
whose own guard then decides marketability. -/
def insertCross (b : OrderBook) (order : Order) :
    Option (OrderBook × Order × List BookEvent) :=
  match order.side with
  | Side.SELL =>
    match b.bid_prices.getLast? with
    | none => none
    | some bb => if order.price ≤ bb then b.trade_ask order else some (b, order, [])
  | Side.BUY =>
    match b.ask_prices.getLast? with
    | none => none
    | some la => if la ≤ order.price then b.trade_bid order else some (b, order, [])

/-- `OrderBook.insert`. -/
def OrderBook.insert (b : OrderBook) (order : Order) :
    Option (OrderBook × Order × List BookEvent) :=
  match insertCross b order with
  | none => none
  | some (b1, o1, evs) =>
    if 0 < o1.remaining_volume then
      if o1.lifespan = Lifespan.FILL_AND_KILL then
        let o2 : Order := { o1 with remaining_volume := 0 }
        some (b1, o2, evs ++ [BookEvent.orderCancelled o2 o1.remaining_volume])
      else
        let pl := b1.place o1
        some (pl.1, o1, evs ++ pl.2)
    else
      some (b1, o1, evs)

/-- Insert an order and then cancel it (the round-trip law of the spec). -/
def insertThenCancel (b : OrderBook) (o : Order) : Option OrderBook :=
  match b.insert o with
  | none => none
  | some (b1, o1, _) =>
    match b1.cancel o1 with
    | none => none
    | some (b2, _, _) => some b2

/-- `OrderBook.midpoint_price`: `round((bid[-1] - ask[-1]) / 2.0)`. -/
def OrderBook.midpoint_price (b : OrderBook) : Option ℤ :=
  match b.bid_prices.getLast?, b.ask_prices.getLast? with
  | some bb, some la => some (roundHalfEven (((bb : ℚ) - (la : ℚ)) / 2))
  | _, _ => none

/-! ## The competitor (`competitor.py`)

The competitor is both the message handler and the order listener of its
own orders.  The execution channel is modelled by `exec_channel : Bool`
(present or not) together with emitted `CompOut` messages; `close()` is the
`channelClose` output.  Book listener callbacks that fire during
`etf_book.insert` are processed from the returned event list. -/

inductive CompOut where
  | error (client_order_id : ℤ) (message : String)
  | orderStatus (client_order_id fill_volume remaining_volume fees : ℤ)
  | positionChange (future_position etf_position : ℤ)
  | channelClose
deriving DecidableEq

structure Competitor where
  account : CompetitorAccount
  active_volume : ℤ
  active_volume_limit : ℤ
  etf_book : OrderBook
  future_book : OrderBook
  buy_prices : List ℤ
  exec_channel : Bool
  last_client_order_id : ℤ
  order_count_limit : ℤ
  orders : List (ℤ × Order)
  position_limit : ℤ
  sell_prices : List ℤ
  tick_size : ℤ
deriving DecidableEq

/-- `Competitor.on_order_placed` (lines 90-94): send an order status only if
the order has not partially filled and the channel is present. -/
def Competitor.on_order_placed_outs (c : Competitor) (ord : Order) : List CompOut :=
  if ord.volume = ord.remaining_volume ∧ c.exec_channel then
    [CompOut.orderStatus ord.client_order_id 0 ord.remaining_volume ord.total_fees]
  else
    []

/-- Drop an order id from the live set and the per-side price list, as the
amended/cancelled callbacks do (`del` and `list.pop(bisect(...) - 1)` both
raise on a missing entry, hence `Option`). -/
def Competitor.dropOrder (c : Competitor) (ord : Order) : Option Competitor :=
  match dictGet c.orders ord.client_order_id with
  | none => none
  | some _ =>
    let c1 := { c with orders := dictErase c.orders ord.client_order_id }
    match ord.side with
    | Side.BUY =>
      match pyPopAt c1.buy_prices ((bisect_right c1.buy_prices ord.price : ℤ) - 1) with
      | none => none
      | some l => some { c1 with buy_prices := l }
    | Side.SELL =>
      match pyPopAt c1.sell_prices ((bisect_right c1.sell_prices (-ord.price) : ℤ) - 1) with
      | none => none
      | some l => some { c1 with sell_prices := l }

/-- The account updates of `Competitor.on_order_filled` (lines 107-116): the
ETF transaction, a mark to market, the opposite FUTURE hedge at the FUTURE
midpoint, and a second mark to market. -/
def onFilledAccount (a : CompetitorAccount) (side : Side)
    (price volume fee last_traded midpoint : ℤ) : CompetitorAccount :=
  let a1 := (a.transact Instrument.ETF side price volume fee).mark_to_market
      last_traded price
  let opp : Side := if side = Side.SELL then Side.BUY else Side.SELL
  (a1.transact Instrument.FUTURE opp midpoint volume 0).mark_to_market
      last_traded price

/-- `Competitor.on_order_filled`.  Pops the aggressive end of the per-side
price list when the order completed, runs the hedge bookkeeping, then sends
statuses and, on a position-limit breach, the hard-breach error and close. -/
def Competitor.on_order_filled_step (c : Competitor) (ord : Order)
    (price volume fee : ℤ) : Option (Competitor × List CompOut) :=
  let c1 := { c with active_volume := c.active_volume - volume }
  let step2 : Option Competitor :=
    if ord.remaining_volume = 0 then
      match dictGet c1.orders ord.client_order_id with
      | none => none
      | some _ =>
        let c2 := { c1 with orders := dictErase c1.orders ord.client_order_id }
        match ord.side with
        | Side.BUY =>
          match c2.buy_prices.dropLast, c2.buy_prices with
          | _, [] => none
          | l, _ :: _ => some { c2 with buy_prices := l }
        | Side.SELL =>
          match c2.sell_prices.dropLast, c2.sell_prices with
          | _, [] => none
          | l, _ :: _ => some { c2 with sell_prices := l }
    else
      some c1
  match step2 with
  | none => none
  | some c2 =>
    match c2.future_book.last_traded_price, c2.future_book.midpoint_price with
    | some last_traded, some midpoint =>
      let a' := onFilledAccount c2.account ord.side price volume fee last_traded midpoint
      let c3 := { c2 with account := a' }
      let outs : List CompOut :=
        if c3.exec_channel then
          [CompOut.orderStatus ord.client_order_id (ord.volume - ord.remaining_volume)
              ord.remaining_volume ord.total_fees,
           CompOut.positionChange a'.future_position a'.etf_position] ++
          (if c3.position_limit < |a'.etf_position| then
            [CompOut.error ord.client_order_id "position limit breached",
             CompOut.channelClose]
          else [])
        else []
      some (c3, outs)
    | _, _ => none

/-- Dispatch one book listener callback to the competitor (trade callbacks
go to the controller, not to the competitor, and are skipped here). -/
def Competitor.handleBookEvent (c : Competitor) (e : BookEvent) :
    Option (Competitor × List CompOut) :=
  match e with
  | BookEvent.orderPlaced ord => some (c, c.on_order_placed_outs ord)
  | BookEvent.orderAmended ord removed =>
    let outs : List CompOut :=
      if c.exec_channel then
        [CompOut.orderStatus ord.client_order_id (ord.volume - ord.remaining_volume)
            ord.remaining_volume ord.total_fees]
      else []
    let c1 := { c with active_volume := c.active_volume - removed }
    if ord.remaining_volume = 0 then
      match c1.dropOrder ord with
      | none => none
      | some c2 => some (c2, outs)
    else
      some (c1, outs)
  | BookEvent.orderCancelled ord removed =>
    let outs : List CompOut :=
      if c.exec_channel then
        [CompOut.orderStatus ord.client_order_id (ord.volume - removed)
            ord.remaining_volume ord.total_fees]
      else []
    let c1 := { c with active_volume := c.active_volume - removed }
    match c1.dropOrder ord with
    | none => none
    | some c2 => some (c2, outs)
  | BookEvent.orderFilled ord price volume fee =>
    c.on_order_filled_step ord price volume fee
  | BookEvent.trade _ _ _ => some (c, [])

/-- Process the callbacks produced by a book operation, in order. -/
def Competitor.processBookEvents (c : Competitor) :
    List BookEvent → Option (Competitor × List CompOut)
  | [] => some (c, [])
  | e :: rest =>
    match c.handleBookEvent e with
    | none => none
    | some (c1, outs) =>
      match c1.processBookEvents rest with
      | none => none
      | some (c2, outs2) => some (c2, outs ++ outs2)

/-- `Competitor.on_insert_message`.  The validation checks run in source
order; every failing check sends a single error message over the channel
(which raises if the channel is gone) and stops.  Python evaluates
`price % self.tick_size` eagerly, so a zero tick size raises there. -/
def Competitor.on_insert_message (c : Competitor) (now : ℚ)
    (client_order_id side price volume lifespan : ℤ) :
    Option (Competitor × List CompOut) :=
  if client_order_id ≤ c.last_client_order_id then
    if c.exec_channel then
      some (c, [CompOut.error client_order_id "duplicate or out-of-order client_order_id"])
    else none
  else
    let c0 := { c with last_client_order_id := client_order_id }
    if side ≠ 1 ∧ side ≠ 0 then
      if c0.exec_channel then
        some (c0, [CompOut.error client_order_id "not a valid side"])
      else none
    else if lifespan ≠ 0 ∧ lifespan ≠ 1 then
      if c0.exec_channel then
        some (c0, [CompOut.error client_order_id "not a valid lifespan"])
      else none
    else if c0.tick_size = 0 then
      none
    else if price % c0.tick_size ≠ 0 then
      if c0.exec_channel then
        some (c0, [CompOut.error client_order_id "price is not a multiple of tick size"])
      else none
    else if (c0.orders.length : ℤ) = c0.order_count_limit then
      if c0.exec_channel then
        some (c0, [CompOut.error client_order_id
          "order rejected: active order count limit breached"])
      else none
    else if volume < 1 then
      if c0.exec_channel then
        some (c0, [CompOut.error client_order_id "order rejected: invalid volume"])
      else none
    else if c0.active_volume_limit < c0.active_volume + volume then
      if c0.exec_channel then
        some (c0, [CompOut.error client_order_id
          "order rejected: active order volume limit breached"])
      else none
    else if now = 0 then
      if c0.exec_channel then
        some (c0, [CompOut.error client_order_id "order rejected: market not yet open"])
      else none
    else if (side = 1 ∧ c0.sell_prices ≠ [] ∧ -(c0.sell_prices.getLastD 0) ≤ price) ∨
        (side = 0 ∧ c0.buy_prices ≠ [] ∧ price ≤ c0.buy_prices.getLastD 0) then
      if c0.exec_channel then
        some (c0, [CompOut.error client_order_id
          "order rejected: in cross with an existing order"])
      else none
    else
      let sd : Side := if side = 0 then Side.SELL else Side.BUY
      let ls : Lifespan := if lifespan = 0 then Lifespan.FILL_AND_KILL
                           else Lifespan.GOOD_FOR_DAY
      let order : Order := ⟨client_order_id, Instrument.ETF, ls, sd, price,
                            volume, 0, volume⟩
      let c1 := { c0 with
        orders := dictSet c0.orders client_order_id order,
        buy_prices := if side = 1 then insort_right c0.buy_prices price
                      else c0.buy_prices,
        sell_prices := if side = 0 then insort_right c0.sell_prices (-price)
                       else c0.sell_prices,
        active_volume := c0.active_volume + volume }
      match c1.etf_book.insert order with
      | none => none
      | some (b', _, evs) =>
        let c2 := { c1 with etf_book := b' }
        c2.processBookEvents evs

/-- The conjunction of all nine insert validation checks, in source order. -/
def insertValid (c : Competitor) (now : ℚ)
    (client_order_id side price volume lifespan : ℤ) : Prop :=
  c.last_client_order_id < client_order_id ∧
  (side = 1 ∨ side = 0) ∧
  (lifespan = 0 ∨ lifespan = 1) ∧
  price % c.tick_size = 0 ∧
  (c.orders.length : ℤ) ≠ c.order_count_limit ∧
  1 ≤ volume ∧
  c.active_volume + volume ≤ c.active_volume_limit ∧
  now ≠ 0 ∧
  ¬((side = 1 ∧ c.sell_prices ≠ [] ∧ -(c.sell_prices.getLastD 0) ≤ price) ∨
    (side = 0 ∧ c.buy_prices ≠ [] ∧ price ≤ c.buy_prices.getLastD 0))

instance (c : Competitor) (now : ℚ) (a b d e f : ℤ) :
    Decidable (insertValid c now a b d e f) := by
  unfold insertValid; infer_instance

/-! ## Auxiliary structures for sequences of operations -/

/-- The data of one ETF fill as seen by `Competitor.on_order_filled`,
together with the FUTURE prices it reads. -/
structure HedgeFill where
  side : Side
  price : ℤ
  volume : ℤ
  fee : ℤ
  last_traded : ℤ
  midpoint : ℤ

/-- The arguments of one `CompetitorAccount.transact` call. -/
structure TransactCall where
  instrument : Instrument
  side : Side
  price : ℤ
  volume : ℤ
  fee : ℤ

/-! ## Basic lemmas -/

theorem roundHalfEven_nonneg {q : ℚ} (h : 0 ≤ q) : 0 ≤ roundHalfEven q := by
  unfold roundHalfEven
  have hf : (0 : ℤ) ≤ ⌊q⌋ := Int.floor_nonneg.mpr h
  dsimp only
  split_ifs <;> omega

theorem onFilledAccount_positions (a : CompetitorAccount) (side : Side)
    (price volume fee last_traded midpoint : ℤ)
    (h : a.future_position = -a.etf_position) :
    (onFilledAccount a side price volume fee last_traded midpoint).future_position =
      -(onFilledAccount a side price volume fee last_traded midpoint).etf_position := by
  unfold onFilledAccount CompetitorAccount.transact CompetitorAccount.mark_to_market
  cases side <;> simp <;> omega

/-- Claim C4: starting from a fresh account, the hedge performed on every
ETF fill (ETF transaction followed by the opposite-side FUTURE transaction
of the same volume at the FUTURE midpoint) maintains
`future_position = -etf_position`; in particular the invariant holds at the
end of every `Competitor.on_order_filled` callback. -/
theorem hedge_invariant_claim (t : ℤ) (cl : ℚ) (l : List HedgeFill) :
    (l.foldl
      (fun a h => onFilledAccount a h.side h.price h.volume h.fee h.last_traded h.midpoint)
      (initialAccount t cl)).future_position =
    -(l.foldl
      (fun a h => onFilledAccount a h.side h.price h.volume h.fee h.last_traded h.midpoint)
      (initialAccount t cl)).etf_position := by
  have hinit : (initialAccount t cl).future_position = -(initialAccount t cl).etf_position := by
    simp [initialAccount]
  generalize initialAccount t cl = a at hinit
  induction l generalizing a with
  | nil => simpa using hinit
  | cons h rest ih =>
    simp only [List.foldl_cons]
    exact ih _ (onFilledAccount_positions _ _ _ _ _ _ _ hinit)

theorem transact_etf_invariant (a : CompetitorAccount) (x : TransactCall)
    (h : a.etf_position = a.buy_volume - a.sell_volume) :
    (a.transact x.instrument x.side x.price x.volume x.fee).etf_position =
      (a.transact x.instrument x.side x.price x.volume x.fee).buy_volume -
      (a.transact x.instrument x.side x.price x.volume x.fee).sell_volume := by
  unfold CompetitorAccount.transact
  rcases x with ⟨i, s, p, v, f⟩
  cases i <;> cases s <;> simp <;> omega

/-- Claim C10: from the initial account the invariant
`etf_position = buy_volume - sell_volume` holds after any sequence of
transactions; per call, an ETF BUY adds the volume to `etf_position` and
`buy_volume`, an ETF SELL subtracts it from `etf_position` and adds it to
`sell_volume`, and FUTURE transactions change none of the three fields. -/
theorem transact_volumes_claim :
    (∀ (t : ℤ) (cl : ℚ) (l : List TransactCall),
      (l.foldl (fun a x => a.transact x.instrument x.side x.price x.volume x.fee)
        (initialAccount t cl)).etf_position =
      (l.foldl (fun a x => a.transact x.instrument x.side x.price x.volume x.fee)
        (initialAccount t cl)).buy_volume -
      (l.foldl (fun a x => a.transact x.instrument x.side x.price x.volume x.fee)
        (initialAccount t cl)).sell_volume) ∧
    (∀ (a : CompetitorAccount) (p v f : ℤ),
      ((a.transact Instrument.ETF Side.BUY p v f).etf_position = a.etf_position + v ∧
       (a.transact Instrument.ETF Side.BUY p v f).buy_volume = a.buy_volume + v ∧
       (a.transact Instrument.ETF Side.BUY p v f).sell_volume = a.sell_volume) ∧
      ((a.transact Instrument.ETF Side.SELL p v f).etf_position = a.etf_position - v ∧
       (a.transact Instrument.ETF Side.SELL p v f).buy_volume = a.buy_volume ∧
       (a.transact Instrument.ETF Side.SELL p v f).sell_volume = a.sell_volume + v) ∧
      (∀ s : Side,
       (a.transact Instrument.FUTURE s p v f).etf_position = a.etf_position ∧
       (a.transact Instrument.FUTURE s p v f).buy_volume = a.buy_volume ∧
       (a.transact Instrument.FUTURE s p v f).sell_volume = a.sell_volume)) := by
  constructor
  · intro t cl l
    have hinit : (initialAccount t cl).etf_position =
        (initialAccount t cl).buy_volume - (initialAccount t cl).sell_volume := by
      simp [initialAccount]
    generalize initialAccount t cl = a at hinit
    induction l generalizing a with
    | nil => simpa using hinit
    | cons x rest ih =>
      simp only [List.foldl_cons]
      exact ih _ (transact_etf_invariant a x hinit)
  · intro a p v f
    refine ⟨⟨?_, ?_, ?_⟩, ⟨?_, ?_, ?_⟩, fun s => ⟨?_, ?_, ?_⟩⟩ <;>
      unfold CompetitorAccount.transact <;> (try cases s) <;> simp

theorem tickFloor_nonneg {d0 t : ℤ} (hd : 0 ≤ d0) (ht : 0 < t) :
    0 ≤ d0 - d0 % t := by
  have h1 : d0 % t = d0 - t * (d0 / t) := Int.emod_def d0 t
  have h2 : 0 ≤ d0 / t := Int.ediv_nonneg hd (le_of_lt ht)
  have h3 : 0 ≤ t * (d0 / t) := mul_nonneg (le_of_lt ht) h2
  omega

/-- Claim C3: `mark_to_market` sets the P&L to
`balance + future_position * future_price + etf_position * clamped`, where
`clamped` clamps the ETF price to `[future_price - delta, future_price + delta]`
with `delta = round(etf_clamp * future_price)` reduced by `delta % tick_size`;
it updates the running maxima of profit and drawdown and changes no other
account field.  (A zero tick size would raise in Python, and a negative clamp
or future price would make the clamp interval empty, hence the hypotheses.) -/
theorem mark_to_market_claim (a : CompetitorAccount) (fp ep : ℤ)
    (ht : 0 < a.tick_size) (hc : 0 ≤ a.etf_clamp) (hf : 0 ≤ fp) :
    (a.mark_to_market fp ep).profit_or_loss =
      a.account_balance + a.future_position * fp + a.etf_position *
        (max (fp - (roundHalfEven (a.etf_clamp * (fp : ℚ)) -
            roundHalfEven (a.etf_clamp * (fp : ℚ)) % a.tick_size))
          (min ep (fp + (roundHalfEven (a.etf_clamp * (fp : ℚ)) -
            roundHalfEven (a.etf_clamp * (fp : ℚ)) % a.tick_size)))) ∧
    (a.mark_to_market fp ep).max_profit =
      max a.max_profit (a.mark_to_market fp ep).profit_or_loss ∧
    (a.mark_to_market fp ep).max_drawdown =
      max a.max_drawdown
        ((a.mark_to_market fp ep).max_profit - (a.mark_to_market fp ep).profit_or_loss) ∧
    (a.mark_to_market fp ep).account_balance = a.account_balance ∧
    (a.mark_to_market fp ep).buy_volume = a.buy_volume ∧
    (a.mark_to_market fp ep).etf_clamp = a.etf_clamp ∧
    (a.mark_to_market fp ep).etf_position = a.etf_position ∧
    (a.mark_to_market fp ep).future_position = a.future_position ∧
    (a.mark_to_market fp ep).sell_volume = a.sell_volume ∧
    (a.mark_to_market fp ep).tick_size = a.tick_size ∧
    (a.mark_to_market fp ep).total_fees = a.total_fees := by
  have hd0 : 0 ≤ roundHalfEven (a.etf_clamp * (fp : ℚ)) := by
    refine roundHalfEven_nonneg (mul_nonneg hc ?_)
    exact_mod_cast hf
  have hdelta : 0 ≤ roundHalfEven (a.etf_clamp * (fp : ℚ)) -
      roundHalfEven (a.etf_clamp * (fp : ℚ)) % a.tick_size :=
    tickFloor_nonneg hd0 ht
  unfold CompetitorAccount.mark_to_market
  dsimp only
  refine ⟨?_, ?_, ?_, rfl, rfl, rfl, rfl, rfl, rfl, rfl, rfl⟩
  · congr 1
    congr 1
    split_ifs <;> omega
  · split_ifs <;> omega
  · split_ifs <;> omega

unseal Rat.add Rat.mul Rat.sub Rat.inv in
theorem mark_to_market_claim_witness :
    (0 : ℤ) < (initialAccount 100 (mkRat 1 10)).tick_size ∧
    (0 : ℚ) ≤ (initialAccount 100 (mkRat 1 10)).etf_clamp ∧
    (0 : ℤ) ≤ 10000 ∧
    ((initialAccount 100 (mkRat 1 10)).mark_to_market 10000 11500).profit_or_loss =
      (initialAccount 100 (mkRat 1 10)).account_balance +
      (initialAccount 100 (mkRat 1 10)).future_position * 10000 +
      (initialAccount 100 (mkRat 1 10)).etf_position *
        (max (10000 - (roundHalfEven ((initialAccount 100 (mkRat 1 10)).etf_clamp * ((10000 : ℤ) : ℚ)) -
            roundHalfEven ((initialAccount 100 (mkRat 1 10)).etf_clamp * ((10000 : ℤ) : ℚ)) %
              (initialAccount 100 (mkRat 1 10)).tick_size))
          (min 11500 (10000 + (roundHalfEven ((initialAccount 100 (mkRat 1 10)).etf_clamp * ((10000 : ℤ) : ℚ)) -
            roundHalfEven ((initialAccount 100 (mkRat 1 10)).etf_clamp * ((10000 : ℤ) : ℚ)) %
              (initialAccount 100 (mkRat 1 10)).tick_size)))) :=
  ⟨by decide, by decide, by decide,
   (mark_to_market_claim (initialAccount 100 (mkRat 1 10)) 10000 11500
      (by decide) (by decide) (by decide)).1⟩

theorem evictCond_mono {interval now t t' : ℚ} (hle : t ≤ t')
    (h : evictCond interval now t') : evictCond interval now t := by
  have he0 : (0 : ℚ) ≤ machineEps := by norm_num [machineEps]
  have he1 : machineEps ≤ 1 := by
    norm_num [machineEps]
  unfold evictCond at h ⊢
  split_ifs at h ⊢ with h1 h2 <;> nlinarith

theorem evictGo_eq_filter (interval now : ℚ) (l : List ℚ)
    (hsort : l.Pairwise (· ≤ ·)) (hkeep : ∃ x ∈ l, ¬ evictCond interval now x) :
    evictGo interval now l =
      some (l.filter (fun t => decide (¬ evictCond interval now t))) := by
  induction l with
  | nil => simp at hkeep
  | cons x xs ih =>
    rcases List.pairwise_cons.mp hsort with ⟨hx, hxs⟩
    by_cases hc : evictCond interval now x
    · have hkeep' : ∃ y ∈ xs, ¬ evictCond interval now y := by
        rcases hkeep with ⟨y, hy, hny⟩
        rcases List.mem_cons.mp hy with rfl | hymem
        · exact absurd hc hny
        · exact ⟨y, hymem, hny⟩
      simp only [evictGo, if_pos hc, List.filter_cons, decide_eq_true_eq]
      rw [if_neg (by simpa using hc)]
      exact ih hxs hkeep'
    · have hall : ∀ y ∈ xs, ¬ evictCond interval now y := fun y hy hcy =>
        hc (evictCond_mono (hx y hy) hcy)
      simp only [evictGo, if_neg hc, List.filter_cons, decide_eq_true_eq]
      rw [if_pos (by simpa using hc)]
      rw [List.filter_eq_self.mpr (fun y hy => by simpa using hall y hy)]

/-- Claim C9: for monotone call times, `check_event(now)` appends `now`,
evicts from the head exactly those times `t` with `t ≤ now - interval` up to
the epsilon tolerance scaled by the larger of `t` and `now - interval`, and
returns true iff the number of retained events exceeds the limit.  The
hypotheses are the state a monotone call sequence maintains (sorted window,
`value` = window size) plus the new event itself surviving the window test
(otherwise the Python loop pops the whole deque and raises). -/
theorem check_event_claim (fl : FrequencyLimiter) (now : ℚ)
    (hsort : fl.events.Pairwise (· ≤ ·))
    (hmono : ∀ t ∈ fl.events, t ≤ now)
    (hval : fl.value = (fl.events.length : ℤ))
    (hkeep : ¬ evictCond fl.interval now now) :
    fl.check_event now =
      some ({ fl with
          events := (fl.events ++ [now]).filter
            (fun t => decide (¬ evictCond fl.interval now t)),
          value := (((fl.events ++ [now]).filter
            (fun t => decide (¬ evictCond fl.interval now t))).length : ℤ) },
        decide (fl.limit <
          (((fl.events ++ [now]).filter
            (fun t => decide (¬ evictCond fl.interval now t))).length : ℤ))) := by
  have hsort' : (fl.events ++ [now]).Pairwise (· ≤ ·) := by
    rw [List.pairwise_append]
    exact ⟨hsort, List.pairwise_singleton _ _, fun x hx y hy => by
      rcases List.mem_singleton.mp hy with rfl
      exact hmono x hx⟩
  have hkeep' : ∃ x ∈ fl.events ++ [now], ¬ evictCond fl.interval now x :=
    ⟨now, by simp, hkeep⟩
  have hfil := evictGo_eq_filter fl.interval now (fl.events ++ [now]) hsort' hkeep'
  have hlen : ((fl.events ++ [now]).filter
      (fun t => decide (¬ evictCond fl.interval now t))).length ≤
      (fl.events ++ [now]).length := List.length_filter_le _ _
  have hv2 : fl.value + 1 - (((fl.events ++ [now]).length : ℤ) -
      (((fl.events ++ [now]).filter
        (fun t => decide (¬ evictCond fl.interval now t))).length : ℤ)) =
      (((fl.events ++ [now]).filter
        (fun t => decide (¬ evictCond fl.interval now t))).length : ℤ) := by
    rw [hval]
    simp only [List.length_append, List.length_singleton]
    push_cast
    omega
  unfold FrequencyLimiter.check_event
  dsimp only
  rw [hfil]
  dsimp only
  rw [hv2]

unseal Rat.add Rat.mul Rat.sub Rat.inv in
theorem check_event_claim_witness :
    FrequencyLimiter.check_event ⟨[1, 2], 1, 1, 2⟩ (mkRat 5 2) =
      some (⟨[2, mkRat 5 2], 1, 1, 2⟩, true) :=
  (check_event_claim ⟨[1, 2], 1, 1, 2⟩ (mkRat 5 2)
    (by decide) (by decide) (by decide) (by decide)).trans (by decide)

theorem dictGet_dictSet_self {α : Type} (m : List (ℤ × α)) (k : ℤ) (v : α) :
    dictGet (dictSet m k v) k = some v := by
  induction m with
  | nil => simp [dictSet, dictGet]
  | cons kv rest ih =>
    rcases kv with ⟨k0, v0⟩
    unfold dictSet
    split_ifs with h1 h2
    · simp [dictGet]
    · simp [dictGet]
    · have : k0 ≠ k := fun h => h2 h
      simp [dictGet, this, ih]

theorem dictGet_dictErase {α : Type} (m : List (ℤ × α)) (k : ℤ) :
    dictGet (dictErase m k) k = none := by
  induction m with
  | nil => simp [dictErase, dictGet]
  | cons kv rest ih =>
    rcases kv with ⟨k0, v0⟩
    unfold dictErase at ih ⊢
    rw [List.filter_cons]
    by_cases h : k0 = k
    · simpa [h] using ih
    · simpa [dictGet, h] using ih

/-- Claim C2: for an order with positive remaining volume, `amend` removes
exactly `old_volume - max(new_volume, fill_volume)` from the order's level
total (deleting the level when it empties), decrements both `volume` and
`remaining_volume` by that amount, and fires the amended callback with it. -/
theorem amend_claim (b : OrderBook) (o : Order) (nv : ℤ) (lvl : Level)
    (b' : OrderBook) (o' : Order) (evs : List BookEvent)
    (hrem : 0 < o.remaining_volume)
    (hlvl : dictGet b.levels o.price = some lvl)
    (hres : b.amend o nv = some (b', o', evs)) :
    o'.volume = o.volume - (o.volume - max nv (o.volume - o.remaining_volume)) ∧
    o'.remaining_volume =
      o.remaining_volume - (o.volume - max nv (o.volume - o.remaining_volume)) ∧
    evs = [BookEvent.orderAmended o'
      (o.volume - max nv (o.volume - o.remaining_volume))] ∧
    ((lvl.total_volume ≠ o.volume - max nv (o.volume - o.remaining_volume) ∧
      dictGet b'.levels o.price = some { lvl with total_volume :=
        lvl.total_volume - (o.volume - max nv (o.volume - o.remaining_volume)) }) ∨
     (lvl.total_volume = o.volume - max nv (o.volume - o.remaining_volume) ∧
      dictGet b'.levels o.price = none)) := by
  have hmax : (if nv < o.volume - o.remaining_volume then o.volume - o.remaining_volume
      else nv) = max nv (o.volume - o.remaining_volume) := by
    split_ifs <;> omega
  unfold OrderBook.amend at hres
  rw [if_pos hrem] at hres
  dsimp only at hres
  rw [hmax] at hres
  unfold OrderBook.remove_volume_from_level at hres
  rw [hlvl] at hres
  dsimp only at hres
  by_cases htot : lvl.total_volume = o.volume - max nv (o.volume - o.remaining_volume)
  · rw [if_pos htot] at hres
    split_ifs at hres with h1 h2
    · rcases hpop : pyPopAt b.ask_prices
          ((bisect_right b.ask_prices (-o.price) : ℤ) - 1) with _ | l
      all_goals rw [hpop] at hres
      · exact absurd hres (by simp)
      · simp only [Option.some.injEq, Prod.mk.injEq] at hres
        obtain ⟨hb, ho, hevs⟩ := hres
        subst hb; subst ho; subst hevs
        exact ⟨rfl, rfl, rfl, Or.inr ⟨htot, dictGet_dictErase b.levels o.price⟩⟩
    · rcases hpop : pyPopAt b.bid_prices
          ((bisect_right b.bid_prices o.price : ℤ) - 1) with _ | l
      all_goals rw [hpop] at hres
      · exact absurd hres (by simp)
      · simp only [Option.some.injEq, Prod.mk.injEq] at hres
        obtain ⟨hb, ho, hevs⟩ := hres
        subst hb; subst ho; subst hevs
        exact ⟨rfl, rfl, rfl, Or.inr ⟨htot, dictGet_dictErase b.levels o.price⟩⟩
    · simp only [Option.some.injEq, Prod.mk.injEq] at hres
      obtain ⟨hb, ho, hevs⟩ := hres
      subst hb; subst ho; subst hevs
      exact ⟨rfl, rfl, rfl, Or.inr ⟨htot, dictGet_dictErase b.levels o.price⟩⟩
  · rw [if_neg htot] at hres
    simp only [Option.some.injEq, Prod.mk.injEq] at hres
    obtain ⟨hb, ho, hevs⟩ := hres
    subst hb; subst ho; subst hevs
    exact ⟨rfl, rfl, rfl, Or.inl ⟨htot, dictGet_dictSet_self b.levels o.price _⟩⟩

/-- A resting BUY 10@10000 of which 4 are filled (the boundary scenario of
the spec), its level, and the book holding it. -/
def amendWitnessOrder : Order :=
  ⟨1, Instrument.ETF, Lifespan.GOOD_FOR_DAY, Side.BUY, 10000, 6, 0, 10⟩

def amendWitnessLevel : Level := ⟨[amendWitnessOrder], 6⟩

def amendWitnessBook : OrderBook :=
  { ask_prices := [-MAXIMUM_ASK]
    bid_prices := [MINIMUM_BID, 10000]
    instrument := Instrument.ETF
    last_traded_price := none
    levels := [(MINIMUM_BID, ⟨[], 0⟩), (10000, amendWitnessLevel), (MAXIMUM_ASK, ⟨[], 0⟩)]
    maker_fee := 0
    taker_fee := 0 }

def amendWitnessBookAfter : OrderBook :=
  { ask_prices := [-MAXIMUM_ASK]
    bid_prices := [MINIMUM_BID]
    instrument := Instrument.ETF
    last_traded_price := none
    levels := [(MINIMUM_BID, ⟨[], 0⟩), (MAXIMUM_ASK, ⟨[], 0⟩)]
    maker_fee := 0
    taker_fee := 0 }

def amendWitnessOrderAfter : Order :=
  ⟨1, Instrument.ETF, Lifespan.GOOD_FOR_DAY, Side.BUY, 10000, 0, 0, 4⟩

theorem amend_claim_witness :
    amendWitnessOrderAfter.volume = amendWitnessOrder.volume -
      (amendWitnessOrder.volume - max 2
        (amendWitnessOrder.volume - amendWitnessOrder.remaining_volume)) ∧
    amendWitnessOrderAfter.remaining_volume = amendWitnessOrder.remaining_volume -
      (amendWitnessOrder.volume - max 2
        (amendWitnessOrder.volume - amendWitnessOrder.remaining_volume)) ∧
    [BookEvent.orderAmended amendWitnessOrderAfter 6] = [BookEvent.orderAmended
      amendWitnessOrderAfter (amendWitnessOrder.volume - max 2
        (amendWitnessOrder.volume - amendWitnessOrder.remaining_volume))] ∧
    ((amendWitnessLevel.total_volume ≠ amendWitnessOrder.volume - max 2
        (amendWitnessOrder.volume - amendWitnessOrder.remaining_volume) ∧
      dictGet amendWitnessBookAfter.levels amendWitnessOrder.price =
        some { amendWitnessLevel with total_volume := amendWitnessLevel.total_volume -
          (amendWitnessOrder.volume - max 2
            (amendWitnessOrder.volume - amendWitnessOrder.remaining_volume)) }) ∨
     (amendWitnessLevel.total_volume = amendWitnessOrder.volume - max 2
        (amendWitnessOrder.volume - amendWitnessOrder.remaining_volume) ∧
      dictGet amendWitnessBookAfter.levels amendWitnessOrder.price = none)) :=
  amend_claim amendWitnessBook amendWitnessOrder 2 amendWitnessLevel
    amendWitnessBookAfter amendWitnessOrderAfter
    [BookEvent.orderAmended amendWitnessOrderAfter 6]
    (by decide) (by decide) (by decide)

/-! ## The per-pair matching specification (claim C1)

`PairFills` is modelled from the spec's wording of Matching: walk the level
queue in FIFO order while the aggressor has remaining volume and the level's
tracked volume is positive, popping zero-remaining heads; each pair trades
`v = min(aggressor.remaining, passive.remaining)` at the level price and the
passive side accrues `round(best_price * v * maker_fee)`. -/

inductive PairFills (maker : ℚ) (price : ℤ) : ℤ → ℤ → List Order → List (ℤ × ℤ × ℤ) → Prop where
  | stop (rem total : ℤ) (queue : List Order) :
      ¬(0 < rem ∧ 0 < total) → PairFills maker price rem total queue []
  | skip (rem total : ℤ) (p : Order) (rest : List Order) (fills : List (ℤ × ℤ × ℤ)) :
      0 < rem → 0 < total → p.remaining_volume = 0 →
      PairFills maker price rem total rest fills →
      PairFills maker price rem total (p :: rest) fills
  | pair (rem total : ℤ) (p : Order) (rest : List Order) (fills : List (ℤ × ℤ × ℤ)) :
      0 < rem → 0 < total → p.remaining_volume ≠ 0 →
      PairFills maker price (rem - min rem p.remaining_volume)
        (total - min rem p.remaining_volume)
        ({ p with remaining_volume := p.remaining_volume - min rem p.remaining_volume,
                  total_fees := p.total_fees + roundHalfEven
                    ((price : ℚ) * ((min rem p.remaining_volume : ℤ) : ℚ) * maker) } :: rest)
        fills →
      PairFills maker price rem total (p :: rest)
        ((p.client_order_id, min rem p.remaining_volume,
          roundHalfEven ((price : ℚ) * ((min rem p.remaining_volume : ℤ) : ℚ) * maker)) :: fills)

/-- Project a fill callback onto `(client_order_id, volume, fee)`. -/
def pfTriple : BookEvent → Option (ℤ × ℤ × ℤ)
  | .orderFilled p _ v f => some (p.client_order_id, v, f)
  | _ => none

/-- The fill callbacks delivered to orders other than `cid`, projected onto
`(client_order_id, volume, fee)`. -/
def passiveTriples (cid : ℤ) (evs : List BookEvent) : List (ℤ × ℤ × ℤ) :=
  evs.filterMap (fun e =>
    match e with
    | .orderFilled p _ v f =>
      if p.client_order_id = cid then none else some (p.client_order_id, v, f)
    | _ => none)

theorem ite_eq_min (a b : ℤ) : (if a < b then a else b) = min a b := by
  split_ifs <;> omega

theorem tradeLoopGo_pairFills {maker : ℚ} {price : ℤ} :
    ∀ {queue : List Order} {rem total : ℤ}
      {res : ℤ × ℤ × List Order × List BookEvent},
      tradeLoopGo maker price rem total queue = some res →
      PairFills maker price rem total queue (res.2.2.2.filterMap pfTriple) := by
  intro queue
  induction queue with
  | nil =>
    intro rem total res hres
    by_cases hg : 0 < rem ∧ 0 < total
    · simp [tradeLoopGo, hg] at hres
    · simp only [tradeLoopGo, if_neg hg, Option.some.injEq] at hres
      subst hres
      exact PairFills.stop rem total [] hg
  | cons p rest ih =>
    intro rem total res hres
    by_cases hg : 0 < rem ∧ 0 < total
    · by_cases hp : p.remaining_volume = 0
      · simp only [tradeLoopGo, if_pos hg, if_pos hp] at hres
        exact PairFills.skip rem total p rest _ hg.1 hg.2 hp (ih hres)
      · simp only [tradeLoopGo, if_pos hg, if_neg hp] at hres
        rw [ite_eq_min] at hres
        by_cases hcont : 0 < rem - min rem p.remaining_volume ∧
            0 < total - min rem p.remaining_volume
        · rw [if_pos hcont] at hres
          rcases hrec : tradeLoopGo maker price (rem - min rem p.remaining_volume)
              (total - min rem p.remaining_volume) rest with _ | res'
          · rw [hrec] at hres; exact absurd hres (by simp)
          · rw [hrec] at hres
            rcases res' with ⟨r, t, q, evs⟩
            simp only [Option.some.injEq] at hres
            subst hres
            have hmin : min rem p.remaining_volume = p.remaining_volume := by
              rcases hcont with ⟨h1, _⟩
              rcases le_or_lt p.remaining_volume rem with h | h
              · omega
              · exfalso; omega
            have hih := ih hrec
            refine PairFills.pair rem total p rest _ hg.1 hg.2 hp ?_
            refine PairFills.skip _ _ _ _ _ hcont.1 hcont.2 ?_ ?_
            · simp [hmin]
            · exact hih
        · rw [if_neg hcont] at hres
          simp only [Option.some.injEq] at hres
          subst hres
          refine PairFills.pair rem total p rest _ hg.1 hg.2 hp ?_
          exact PairFills.stop _ _ _ hcont
    · simp only [tradeLoopGo, if_neg hg, Option.some.injEq] at hres
      subst hres
      exact PairFills.stop rem total _ hg

theorem tradeLoopGo_events {maker : ℚ} {price : ℤ} :
    ∀ {queue : List Order} {rem total : ℤ}
      {res : ℤ × ℤ × List Order × List BookEvent},
      tradeLoopGo maker price rem total queue = some res →
      ∀ e ∈ res.2.2.2, ∃ p, p ∈ queue ∧ p.remaining_volume ≠ 0 ∧ ∃ v f,
        e = BookEvent.orderFilled
          { p with remaining_volume := p.remaining_volume - v, total_fees := p.total_fees + f }
          price v f := by
  intro queue
  induction queue with
  | nil =>
    intro rem total res hres e he
    by_cases hg : 0 < rem ∧ 0 < total
    · simp [tradeLoopGo, hg] at hres
    · simp only [tradeLoopGo, if_neg hg, Option.some.injEq] at hres
      subst hres
      simp at he
  | cons p rest ih =>
    intro rem total res hres e he
    by_cases hg : 0 < rem ∧ 0 < total
    · by_cases hp : p.remaining_volume = 0
      · simp only [tradeLoopGo, if_pos hg, if_pos hp] at hres
        rcases ih hres e he with ⟨q, hq, hq0, v, f, he'⟩
        exact ⟨q, List.mem_cons_of_mem p hq, hq0, v, f, he'⟩
      · simp only [tradeLoopGo, if_pos hg, if_neg hp] at hres
        by_cases hcont : 0 < rem - (if rem < p.remaining_volume then rem
            else p.remaining_volume) ∧ 0 < total - (if rem < p.remaining_volume then rem
            else p.remaining_volume)
        · rw [if_pos hcont] at hres
          rcases hrec : tradeLoopGo maker price
              (rem - (if rem < p.remaining_volume then rem else p.remaining_volume))
              (total - (if rem < p.remaining_volume then rem else p.remaining_volume))
              rest with _ | res'
          · rw [hrec] at hres; exact absurd hres (by simp)
          · rw [hrec] at hres
            rcases res' with ⟨r, t, q, evs⟩
            simp only [Option.some.injEq] at hres
            subst hres
            simp only [List.mem_cons] at he
            rcases he with rfl | he
            · exact ⟨p, List.mem_cons_self p rest, hp,
                (if rem < p.remaining_volume then rem else p.remaining_volume), _, rfl⟩
            · rcases ih hrec e he with ⟨q', hq', hq0, v, f, he'⟩
              exact ⟨q', List.mem_cons_of_mem p hq', hq0, v, f, he'⟩
        · rw [if_neg hcont] at hres
          simp only [Option.some.injEq] at hres
          subst hres
          simp only [List.mem_singleton] at he
          subst he
          exact ⟨p, List.mem_cons_self p rest, hp,
            (if rem < p.remaining_volume then rem else p.remaining_volume), _, rfl⟩
    · simp only [tradeLoopGo, if_neg hg, Option.some.injEq] at hres
      subst hres
      simp at he

theorem tradeLoopGo_queue {maker : ℚ} {price : ℤ} :
    ∀ {queue : List Order} {rem total : ℤ}
      {res : ℤ × ℤ × List Order × List BookEvent},
      tradeLoopGo maker price rem total queue = some res →
      ∀ q ∈ res.2.2.1, q ∈ queue ∨ ∃ p, p ∈ queue ∧ p.remaining_volume ≠ 0 ∧
        q = { p with remaining_volume := q.remaining_volume, total_fees := q.total_fees } := by
  intro queue
  induction queue with
  | nil =>
    intro rem total res hres q hq
    by_cases hg : 0 < rem ∧ 0 < total
    · simp [tradeLoopGo, hg] at hres
    · simp only [tradeLoopGo, if_neg hg, Option.some.injEq] at hres
      subst hres
      simp at hq
  | cons p rest ih =>
    intro rem total res hres q hq
    by_cases hg : 0 < rem ∧ 0 < total
    · by_cases hp : p.remaining_volume = 0
      · simp only [tradeLoopGo, if_pos hg, if_pos hp] at hres
        rcases ih hres q hq with h | ⟨p', hp', h0, he⟩
        · exact Or.inl (List.mem_cons_of_mem p h)
        · exact Or.inr ⟨p', List.mem_cons_of_mem p hp', h0, he⟩
      · simp only [tradeLoopGo, if_pos hg, if_neg hp] at hres
        by_cases hcont : 0 < rem - (if rem < p.remaining_volume then rem
            else p.remaining_volume) ∧ 0 < total - (if rem < p.remaining_volume then rem
            else p.remaining_volume)
        · rw [if_pos hcont] at hres
          rcases hrec : tradeLoopGo maker price
              (rem - (if rem < p.remaining_volume then rem else p.remaining_volume))
              (total - (if rem < p.remaining_volume then rem else p.remaining_volume))
              rest with _ | res'
          · rw [hrec] at hres; exact absurd hres (by simp)
          · rw [hrec] at hres
            rcases res' with ⟨r, t, q', evs⟩
            simp only [Option.some.injEq] at hres
            subst hres
            rcases ih hrec q hq with h | ⟨p', hp', h0, he⟩
            · exact Or.inl (List.mem_cons_of_mem p h)
            · exact Or.inr ⟨p', List.mem_cons_of_mem p hp', h0, he⟩
        · rw [if_neg hcont] at hres
          simp only [Option.some.injEq] at hres
          subst hres
          simp only [List.mem_cons] at hq
          rcases hq with rfl | hq
          · exact Or.inr ⟨p, List.mem_cons_self p rest, hp, rfl⟩
          · exact Or.inl (List.mem_cons_of_mem p hq)
    · simp only [tradeLoopGo, if_neg hg, Option.some.injEq] at hres
      subst hres
      exact Or.inl hq

theorem tradeLoopGo_totals {maker : ℚ} {price : ℤ} :
    ∀ {queue : List Order} {rem total : ℤ}
      {res : ℤ × ℤ × List Order × List BookEvent},
      tradeLoopGo maker price rem total queue = some res →
      rem - res.1 = total - res.2.1 := by
  intro queue
  induction queue with
  | nil =>
    intro rem total res hres
    by_cases hg : 0 < rem ∧ 0 < total
    · simp [tradeLoopGo, hg] at hres
    · simp only [tradeLoopGo, if_neg hg, Option.some.injEq] at hres
      subst hres
      ring
  | cons p rest ih =>
    intro rem total res hres
    by_cases hg : 0 < rem ∧ 0 < total
    · by_cases hp : p.remaining_volume = 0
      · simp only [tradeLoopGo, if_pos hg, if_pos hp] at hres
        exact ih hres
      · simp only [tradeLoopGo, if_pos hg, if_neg hp] at hres
        by_cases hcont : 0 < rem - (if rem < p.remaining_volume then rem
            else p.remaining_volume) ∧ 0 < total - (if rem < p.remaining_volume then rem
            else p.remaining_volume)
        · rw [if_pos hcont] at hres
          rcases hrec : tradeLoopGo maker price
              (rem - (if rem < p.remaining_volume then rem else p.remaining_volume))
              (total - (if rem < p.remaining_volume then rem else p.remaining_volume))
              rest with _ | res'
          · rw [hrec] at hres; exact absurd hres (by simp)
          · rw [hrec] at hres
            rcases res' with ⟨r, t, q', evs⟩
            simp only [Option.some.injEq] at hres
            subst hres
            have := ih hrec
            dsimp only at this ⊢
            omega
        · rw [if_neg hcont] at hres
          simp only [Option.some.injEq] at hres
          subst hres
          dsimp only
          ring
    · simp only [tradeLoopGo, if_neg hg, Option.some.injEq] at hres
      subst hres
      ring

theorem passiveTriples_eq_pfTriple (cid : ℤ) (evs : List BookEvent)
    (h : ∀ e ∈ evs, ∀ p pr v f, e = BookEvent.orderFilled p pr v f →
      p.client_order_id ≠ cid) :
    passiveTriples cid evs = evs.filterMap pfTriple := by
  induction evs with
  | nil => rfl
  | cons e rest ih =>
    have hrest := ih (fun e' he' => h e' (List.mem_cons_of_mem e he'))
    cases e with
    | orderFilled p pr v f =>
      simp only [passiveTriples, pfTriple, List.filterMap_cons] at hrest ⊢
      rw [if_neg (h _ (List.mem_cons_self _ _) p pr v f rfl), hrest]
    | orderAmended o vr =>
      simp only [passiveTriples, pfTriple, List.filterMap_cons] at hrest ⊢
      exact hrest
    | orderCancelled o vr =>
      simp only [passiveTriples, pfTriple, List.filterMap_cons] at hrest ⊢
      exact hrest
    | orderPlaced o =>
      simp only [passiveTriples, pfTriple, List.filterMap_cons] at hrest ⊢
      exact hrest
    | trade i pr vl =>
      simp only [passiveTriples, pfTriple, List.filterMap_cons] at hrest ⊢
      exact hrest

/-- Claim C1: matching an aggressor at one price level pairs it with the
passive queue according to the per-pair `min` rule with the maker fee per
pair (`PairFills`), invokes the aggressor's fill callback exactly once with
the level's total traded volume and the taker fee on it, invokes the trade
listener exactly once with that volume, decreases the level total by it,
and sets the last traded price to the level's price. -/
theorem trade_level_claim (b : OrderBook) (o : Order) (lvl : Level) (bp : ℤ)
    (b' : OrderBook) (o' : Order) (lvl' : Level) (evs : List BookEvent)
    (hres : b.trade_level o lvl bp = some (b', o', lvl', evs))
    (hid : ∀ p ∈ lvl.order_queue, p.client_order_id ≠ o.client_order_id) :
    b'.last_traded_price = some bp ∧
    evs.filter BookEvent.isTrade =
      [BookEvent.trade b.instrument bp (o.remaining_volume - o'.remaining_volume)] ∧
    evs.filter (fun e => decide (e.fillCid = some o.client_order_id)) =
      [BookEvent.orderFilled o' bp (o.remaining_volume - o'.remaining_volume)
        (roundHalfEven ((bp : ℚ) * ((o.remaining_volume - o'.remaining_volume : ℤ) : ℚ) *
          b.taker_fee))] ∧
    o'.total_fees = o.total_fees +
      roundHalfEven ((bp : ℚ) * ((o.remaining_volume - o'.remaining_volume : ℤ) : ℚ) *
        b.taker_fee) ∧
    lvl'.total_volume = lvl.total_volume - (o.remaining_volume - o'.remaining_volume) ∧
    PairFills b.maker_fee bp o.remaining_volume lvl.total_volume lvl.order_queue
      (passiveTriples o.client_order_id evs) := by
  unfold OrderBook.trade_level at hres
  rcases hcore : trade_level_core b.maker_fee b.taker_fee b.instrument o lvl bp
      with _ | ⟨o1, lvl1, evs1⟩
  · rw [hcore] at hres; exact absurd hres (by simp)
  rw [hcore] at hres
  simp only [Option.some.injEq, Prod.mk.injEq] at hres
  obtain ⟨hb, ho1, hlvl1, hevs1⟩ := hres
  unfold trade_level_core at hcore
  rcases hloop : tradeLoopGo b.maker_fee bp o.remaining_volume lvl.total_volume
      lvl.order_queue with _ | ⟨remaining, total, queue, levs⟩
  · rw [hloop] at hcore; exact absurd hcore (by simp)
  rw [hloop] at hcore
  simp only [Option.some.injEq, Prod.mk.injEq] at hcore
  obtain ⟨ho1', hlvl1', hevs1'⟩ := hcore
  subst ho1' hlvl1' hevs1' ho1 hlvl1 hevs1
  subst hb
  have hlevs := tradeLoopGo_events hloop
  have htot := tradeLoopGo_totals hloop
  dsimp only at hlevs htot
  have hcid : ∀ e ∈ levs, ∀ p pr v f, e = BookEvent.orderFilled p pr v f →
      p.client_order_id ≠ o.client_order_id := by
    intro e he p pr v f hef
    rcases hlevs e he with ⟨q, hq, hq0, v', f', he'⟩
    rw [hef] at he'
    have : p.client_order_id = q.client_order_id := by
      have := (BookEvent.orderFilled.injEq _ _ _ _ _ _ _ _).mp he'
      rw [this.1]
    rw [this]
    exact hid q hq
  have hnotrade : levs.filter BookEvent.isTrade = [] := by
    rw [List.filter_eq_nil]
    intro e he
    rcases hlevs e he with ⟨q, hq, hq0, v', f', he'⟩
    subst he'
    simp [BookEvent.isTrade]
  have hnofillagg : levs.filter
      (fun e => decide (e.fillCid = some o.client_order_id)) = [] := by
    rw [List.filter_eq_nil]
    intro e he
    rcases hlevs e he with ⟨q, hq, hq0, v', f', he'⟩
    subst he'
    simp only [BookEvent.fillCid, decide_eq_true_eq]
    intro hcontra
    have : q.client_order_id = o.client_order_id := by
      simpa using hcontra
    exact hid q hq this
  refine ⟨rfl, ?_, ?_, rfl, ?_, ?_⟩
  · rw [List.filter_append, hnotrade]
    simp [BookEvent.isTrade]
  · rw [List.filter_append, hnofillagg]
    simp [BookEvent.fillCid]
  · dsimp only
    omega
  · have hpt : passiveTriples o.client_order_id
        (levs ++ [BookEvent.orderFilled
          { o with remaining_volume := remaining, total_fees := o.total_fees +
            roundHalfEven ((bp : ℚ) * ((o.remaining_volume - remaining : ℤ) : ℚ) * b.taker_fee) }
          bp (o.remaining_volume - remaining)
          (roundHalfEven ((bp : ℚ) * ((o.remaining_volume - remaining : ℤ) : ℚ) * b.taker_fee)),
          BookEvent.trade b.instrument bp (o.remaining_volume - remaining)]) =
        passiveTriples o.client_order_id levs := by
      unfold passiveTriples
      rw [List.filterMap_append]
      simp
    rw [hpt, passiveTriples_eq_pfTriple _ _ hcid]
    exact tradeLoopGo_pairFills hloop

def tlWitAgg : Order := ⟨99, Instrument.ETF, Lifespan.FILL_AND_KILL, Side.SELL, 10000, 7, 0, 7⟩

def tlWitAggAfter : Order := ⟨99, Instrument.ETF, Lifespan.FILL_AND_KILL, Side.SELL, 10000, 0, 14, 7⟩

def tlWitLvl : Level :=
  ⟨[⟨1, Instrument.ETF, Lifespan.GOOD_FOR_DAY, Side.BUY, 10000, 4, 0, 4⟩,
    ⟨2, Instrument.ETF, Lifespan.GOOD_FOR_DAY, Side.BUY, 10000, 6, 0, 6⟩], 10⟩

def tlWitLvlAfter : Level :=
  ⟨[⟨2, Instrument.ETF, Lifespan.GOOD_FOR_DAY, Side.BUY, 10000, 3, -3, 6⟩], 3⟩

def tlWitBook : OrderBook :=
  { ask_prices := [-MAXIMUM_ASK]
    bid_prices := [MINIMUM_BID, 10000]
    instrument := Instrument.ETF
    last_traded_price := none
    levels := [(MINIMUM_BID, ⟨[], 0⟩), (10000, tlWitLvl), (MAXIMUM_ASK, ⟨[], 0⟩)]
    maker_fee := mkRat (-1) 10000
    taker_fee := mkRat 2 10000 }

def tlWitBookAfter : OrderBook := { tlWitBook with last_traded_price := some 10000 }

def tlWitEvs : List BookEvent :=
  [BookEvent.orderFilled ⟨1, Instrument.ETF, Lifespan.GOOD_FOR_DAY, Side.BUY, 10000, 0, -4, 4⟩
    10000 4 (-4),
   BookEvent.orderFilled ⟨2, Instrument.ETF, Lifespan.GOOD_FOR_DAY, Side.BUY, 10000, 3, -3, 6⟩
    10000 3 (-3),
   BookEvent.orderFilled tlWitAggAfter 10000 7 14,
   BookEvent.trade Instrument.ETF 10000 7]

unseal Rat.add Rat.mul Rat.sub Rat.inv in
theorem trade_level_claim_witness :
    tlWitBookAfter.last_traded_price = some 10000 ∧
    tlWitEvs.filter BookEvent.isTrade =
      [BookEvent.trade tlWitBook.instrument 10000
        (tlWitAgg.remaining_volume - tlWitAggAfter.remaining_volume)] ∧
    tlWitEvs.filter (fun e => decide (e.fillCid = some tlWitAgg.client_order_id)) =
      [BookEvent.orderFilled tlWitAggAfter 10000
        (tlWitAgg.remaining_volume - tlWitAggAfter.remaining_volume)
        (roundHalfEven (((10000 : ℤ) : ℚ) *
          ((tlWitAgg.remaining_volume - tlWitAggAfter.remaining_volume : ℤ) : ℚ) *
          tlWitBook.taker_fee))] ∧
    tlWitAggAfter.total_fees = tlWitAgg.total_fees +
      roundHalfEven (((10000 : ℤ) : ℚ) *
        ((tlWitAgg.remaining_volume - tlWitAggAfter.remaining_volume : ℤ) : ℚ) *
        tlWitBook.taker_fee) ∧
    tlWitLvlAfter.total_volume = tlWitLvl.total_volume -
      (tlWitAgg.remaining_volume - tlWitAggAfter.remaining_volume) ∧
    PairFills tlWitBook.maker_fee 10000 tlWitAgg.remaining_volume tlWitLvl.total_volume
      tlWitLvl.order_queue (passiveTriples tlWitAgg.client_order_id tlWitEvs) :=
  trade_level_claim tlWitBook tlWitAgg tlWitLvl 10000 tlWitBookAfter tlWitAggAfter
    tlWitLvlAfter tlWitEvs (by decide) (by decide)

/-- Claim C7: an order with zero remaining volume is terminal.  `amend` and
`cancel` are guarded no-ops that fire no callback and change nothing, and a
matching pass over a level containing such an order (which lazily pops it)
fires no fill callback for it and never alters its fields: any order left in
the queue under its id is the unchanged order itself. -/
theorem terminal_order_claim
    (bA : OrderBook) (oA : Order) (nv : ℤ) (bC : OrderBook) (oC : Order)
    (bT : OrderBook) (oT : Order) (lvl : Level) (bp : ℤ)
    (bT' : OrderBook) (oT' : Order) (lvl' : Level) (evs : List BookEvent) (z : Order)
    (hA : oA.remaining_volume = 0)
    (hC : oC.remaining_volume = 0)
    (hres : bT.trade_level oT lvl bp = some (bT', oT', lvl', evs))
    (hz : z ∈ lvl.order_queue) (hz0 : z.remaining_volume = 0)
    (huniq : ∀ p ∈ lvl.order_queue, p.client_order_id = z.client_order_id → p = z)
    (hza : oT.client_order_id ≠ z.client_order_id) :
    bA.amend oA nv = some (bA, oA, []) ∧
    bC.cancel oC = some (bC, oC, []) ∧
    (∀ e ∈ evs, e.fillCid ≠ some z.client_order_id) ∧
    (∀ q ∈ lvl'.order_queue, q.client_order_id = z.client_order_id → q = z) := by
  unfold OrderBook.trade_level at hres
  rcases hcore : trade_level_core bT.maker_fee bT.taker_fee bT.instrument oT lvl bp
      with _ | ⟨o1, lvl1, evs1⟩
  · rw [hcore] at hres; exact absurd hres (by simp)
  rw [hcore] at hres
  simp only [Option.some.injEq, Prod.mk.injEq] at hres
  obtain ⟨hb, ho1, hlvl1, hevs1⟩ := hres
  unfold trade_level_core at hcore
  rcases hloop : tradeLoopGo bT.maker_fee bp oT.remaining_volume lvl.total_volume
      lvl.order_queue with _ | ⟨remaining, total, queue, levs⟩
  · rw [hloop] at hcore; exact absurd hcore (by simp)
  rw [hloop] at hcore
  simp only [Option.some.injEq, Prod.mk.injEq] at hcore
  obtain ⟨ho1', hlvl1', hevs1'⟩ := hcore
  subst ho1' hlvl1' hevs1' ho1 hlvl1 hevs1
  refine ⟨?_, ?_, ?_, ?_⟩
  · unfold OrderBook.amend
    rw [if_neg (by omega)]
  · unfold OrderBook.cancel
    rw [if_neg (by omega)]
  · intro e he
    simp only [List.mem_append, List.mem_cons, List.mem_singleton] at he
    rcases he with he | he | he | he
    · rcases tradeLoopGo_events hloop e he with ⟨q, hq, hq0, v, f, he'⟩
      subst he'
      simp only [BookEvent.fillCid, ne_eq, Option.some.injEq]
      intro hcontra
      have hqz : q = z := huniq q hq (by simpa using hcontra)
      rw [hqz] at hq0
      exact hq0 hz0
    · subst he
      simp only [BookEvent.fillCid, ne_eq, Option.some.injEq]
      intro hcontra
      exact hza (by simpa using hcontra)
    · subst he
      simp [BookEvent.fillCid]
    · simp at he
  · intro q hq hqid
    dsimp only at hq
    rcases tradeLoopGo_queue hloop q hq with h | ⟨p, hp, hp0, he⟩
    · exact huniq q h hqid
    · have hpq : p.client_order_id = z.client_order_id := by
        rw [he] at hqid
        exact hqid
      have := huniq p hp hpq
      rw [this] at hp0
      exact absurd hz0 hp0

def tlW7Z : Order := ⟨1, Instrument.ETF, Lifespan.GOOD_FOR_DAY, Side.BUY, 10000, 0, 0, 4⟩

def tlW7P2 : Order := ⟨2, Instrument.ETF, Lifespan.GOOD_FOR_DAY, Side.BUY, 10000, 6, 0, 6⟩

def tlW7Lvl : Level := ⟨[tlW7Z, tlW7P2], 6⟩

def tlW7Agg : Order := ⟨99, Instrument.ETF, Lifespan.FILL_AND_KILL, Side.SELL, 10000, 7, 0, 7⟩

def tlW7AggAfter : Order :=
  ⟨99, Instrument.ETF, Lifespan.FILL_AND_KILL, Side.SELL, 10000, 1, 12, 7⟩

def tlW7P2After : Order := ⟨2, Instrument.ETF, Lifespan.GOOD_FOR_DAY, Side.BUY, 10000, 0, -6, 6⟩

def tlW7Evs : List BookEvent :=
  [BookEvent.orderFilled tlW7P2After 10000 6 (-6),
   BookEvent.orderFilled tlW7AggAfter 10000 6 12,
   BookEvent.trade Instrument.ETF 10000 6]

unseal Rat.add Rat.mul Rat.sub Rat.inv in
theorem terminal_order_claim_witness :
    tlWitBook.amend tlW7Z 2 = some (tlWitBook, tlW7Z, []) ∧
    tlWitBook.cancel tlW7Z = some (tlWitBook, tlW7Z, []) ∧
    (BookEvent.orderFilled tlW7P2After 10000 6 (-6)).fillCid ≠
      some tlW7Z.client_order_id ∧
    (tlW7P2After.client_order_id = tlW7Z.client_order_id → tlW7P2After = tlW7Z) :=
  have T := terminal_order_claim tlWitBook tlW7Z 2 tlWitBook tlW7Z tlWitBook tlW7Agg
    tlW7Lvl 10000 tlWitBookAfter tlW7AggAfter ⟨[tlW7P2After], 0⟩ tlW7Evs tlW7Z
    (by decide) (by decide) (by decide) (by decide) (by decide) (by decide) (by decide)
  ⟨T.1, T.2.1, T.2.2.1 _ (by decide), T.2.2.2 tlW7P2After (by decide)⟩

theorem dictErase_of_get_none {α : Type} (m : List (ℤ × α)) (k : ℤ)
    (h : dictGet m k = none) : dictErase m k = m := by
  induction m with
  | nil => rfl
  | cons kv rest ih =>
    rcases kv with ⟨k0, v0⟩
    unfold dictGet at h
    by_cases hk : k0 = k
    · rw [if_pos hk] at h; exact absurd h (by simp)
    · rw [if_neg hk] at h
      unfold dictErase at ih ⊢
      rw [List.filter_cons, if_pos (by simpa using hk)]
      rw [ih h]

theorem dictErase_dictSet_fresh {α : Type} (m : List (ℤ × α)) (k : ℤ) (v : α)
    (h : dictGet m k = none) : dictErase (dictSet m k v) k = m := by
  induction m with
  | nil => simp [dictSet, dictErase]
  | cons kv rest ih =>
    rcases kv with ⟨k0, v0⟩
    unfold dictGet at h
    by_cases hk : k0 = k
    · rw [if_pos hk] at h; exact absurd h (by simp)
    · rw [if_neg hk] at h
      unfold dictSet
      by_cases h1 : k < k0
      · rw [if_pos h1]
        unfold dictErase
        rw [List.filter_cons, if_neg (by simp)]
        rw [List.filter_cons, if_pos (by simpa using hk)]
        have := dictErase_of_get_none rest k h
        unfold dictErase at this
        rw [this]
      · rw [if_neg h1, if_neg hk]
        unfold dictErase at ih ⊢
        rw [List.filter_cons, if_pos (by simpa using hk)]
        rw [ih h]

theorem pyPopAt_of_bounds (l : List ℤ) (i : ℤ) (h0 : 0 ≤ i) (hlt : i < (l.length : ℤ)) :
    pyPopAt l i = some (l.eraseIdx i.toNat) := by
  unfold pyPopAt
  dsimp only
  rw [if_neg (by omega : ¬ i < 0)]
  rw [if_pos ⟨h0, hlt⟩]

theorem pyPopAt_out_of_bounds (l : List ℤ) (i : ℤ) (h0 : 0 ≤ i)
    (hge : (l.length : ℤ) ≤ i) : pyPopAt l i = none := by
  unfold pyPopAt
  dsimp only
  rw [if_neg (by omega : ¬ i < 0)]
  rw [if_neg (by omega)]

theorem bisect_right_insort_pos (x : ℤ) (l : List ℤ) :
    1 ≤ bisect_right (insort_left l x) x := by
  cases l with
  | nil => simp [insort_left, bisect_right, List.takeWhile]
  | cons z zs =>
    unfold insort_left
    split_ifs with hz
    · simp only [bisect_right, List.takeWhile_cons]
      rw [decide_eq_true (by omega : z ≤ x)]
      simp
    · simp only [bisect_right, List.takeWhile_cons]
      rw [decide_eq_true (le_refl x)]
      simp

theorem insort_pop_round (x : ℤ) : ∀ l : List ℤ, l.Pairwise (· < ·) → x ∉ l →
    pyPopAt (insort_left l x) ((bisect_right (insort_left l x) x : ℤ) - 1) = some l := by
  intro l
  induction l with
  | nil =>
    intro _ _
    simp [insort_left, bisect_right, List.takeWhile, pyPopAt]
  | cons y ys ih =>
    intro hs hx
    rcases List.pairwise_cons.mp hs with ⟨hy, hys⟩
    have hxne : x ≠ y := fun h => hx (h ▸ List.mem_cons_self y ys)
    have hxys : x ∉ ys := fun h => hx (List.mem_cons_of_mem y h)
    by_cases hyx : y < x
    · simp only [insort_left, if_pos hyx]
      have hIH := ih hys hxys
      have hb : bisect_right (y :: insort_left ys x) x =
          bisect_right (insort_left ys x) x + 1 := by
        simp only [bisect_right, List.takeWhile_cons]
        rw [decide_eq_true (by omega : y ≤ x)]
        simp [Nat.add_comm]
      rw [hb]
      have hpos := bisect_right_insort_pos x ys
      have hlen : ((bisect_right (insort_left ys x) x : ℤ) - 1) <
          ((insort_left ys x).length : ℤ) := by
        by_contra hcon
        rw [pyPopAt_out_of_bounds _ _ (by omega) (by omega)] at hIH
        exact absurd hIH (by simp)
      rw [pyPopAt_of_bounds _ _ (by omega)
        (by simp only [List.length_cons]; push_cast; omega)]
      rw [pyPopAt_of_bounds _ _ (by omega) hlen] at hIH
      simp only [Option.some.injEq] at hIH ⊢
      obtain ⟨m, hm⟩ : ∃ m : ℕ, bisect_right (insort_left ys x) x = m + 1 :=
        ⟨bisect_right (insort_left ys x) x - 1, by omega⟩
      have h1 : (((bisect_right (insort_left ys x) x + 1 : ℕ) : ℤ) - 1).toNat = m + 1 := by
        omega
      have h2 : ((bisect_right (insort_left ys x) x : ℤ) - 1).toNat = m := by
        omega
      rw [h1, List.eraseIdx_cons_succ]
      rw [h2] at hIH
      rw [hIH]
    · have hxy : x < y := by
        have h := not_lt.mp hyx
        omega
      simp only [insort_left, if_neg hyx]
      have hb : bisect_right (x :: y :: ys) x = 1 := by
        simp only [bisect_right, List.takeWhile_cons]
        rw [decide_eq_true (le_refl x)]
        rw [decide_eq_false (by omega : ¬(y ≤ x))]
        simp
      rw [hb]
      rw [pyPopAt_of_bounds _ _ (by omega)
        (by simp only [List.length_cons]; push_cast; omega)]
      norm_num

theorem reverse_eq_cons_of_getLast {l : List ℤ} {a : ℤ} (h : l.getLast? = some a) :
    l.reverse = a :: l.dropLast.reverse := by
  have hne : l ≠ [] := by
    intro h'
    rw [h'] at h
    simp at h
  have ha : l.getLast hne = a := by
    rw [List.getLast?_eq_getLast l hne] at h
    simpa using h
  conv_lhs => rw [← List.dropLast_append_getLast hne]
  rw [List.reverse_append, ha]
  rfl

/-- Claim C8 (amended): insert-then-cancel of a non-crossing GOOD_FOR_DAY
order restores the book exactly, provided no level already exists at the
order's price (in particular the price is not a sentinel, since sentinel
levels are always present).  If a level does already exist, the cancelled
order remains in its queue with zero remaining volume, so the book is not
restored (see the counterexample). -/
theorem insert_cancel_round_trip (b : OrderBook) (o : Order)
    (hGFD : o.lifespan = Lifespan.GOOD_FOR_DAY)
    (hfresh : dictGet b.levels o.price = none)
    (hsell : o.side = Side.SELL →
      b.ask_prices.Pairwise (· < ·) ∧ (-o.price) ∉ b.ask_prices ∧
      o.price < MAXIMUM_ASK ∧
      ∃ bb, b.bid_prices.getLast? = some bb ∧ bb < o.price)
    (hbuy : o.side = Side.BUY →
      b.bid_prices.Pairwise (· < ·) ∧ o.price ∉ b.bid_prices ∧
      MINIMUM_BID < o.price ∧
      ∃ la, b.ask_prices.getLast? = some la ∧ o.price < -la ∧
        (la ≤ o.price → ∃ lvlA, dictGet b.levels (-la) = some lvlA)) :
    insertThenCancel b o = some b := by
  have hstep1 : insertCross b o = some (b, o, ([] : List BookEvent)) := by
    unfold insertCross
    cases hside : o.side with
    | SELL =>
      rcases hsell hside with ⟨hps, hmem, hmax, bb, hbb, hlt⟩
      rw [hbb]
      dsimp only
      rw [if_neg (by omega)]
    | BUY =>
      rcases hbuy hside with ⟨hps, hmem, hmin, la, hla, hlt, hlvl⟩
      rw [hla]
      dsimp only
      by_cases hmk : la ≤ o.price
      · rw [if_pos hmk]
        rcases hlvl hmk with ⟨lvlA, hlvlA⟩
        unfold OrderBook.trade_bid
        rw [reverse_eq_cons_of_getLast hla]
        simp only [tradeBidGo]
        rw [hlvlA]
        dsimp only
        rw [if_neg (by omega)]
        rw [← reverse_eq_cons_of_getLast hla]
        dsimp only
        rw [List.reverse_reverse]
      · rw [if_neg hmk]
  unfold insertThenCancel OrderBook.insert
  rw [hstep1]
  dsimp only
  by_cases hrem : 0 < o.remaining_volume
  · rw [if_pos hrem]
    rw [if_neg (by rw [hGFD]; intro h; exact absurd h (by simp))]
    unfold OrderBook.place
    rw [hfresh]
    dsimp only
    cases hside : o.side with
    | SELL =>
      rcases hsell hside with ⟨hps, hmem, hmax, bb, hbb, hlt⟩
      rw [if_pos rfl]
      unfold OrderBook.cancel
      rw [if_pos hrem]
      unfold OrderBook.remove_volume_from_level
      dsimp only
      rw [dictGet_dictSet_self]
      dsimp only
      rw [if_pos rfl]
      rw [if_pos ⟨hside, hmax⟩]
      rw [insort_pop_round (-o.price) b.ask_prices hps hmem]
      dsimp only
      rw [dictErase_dictSet_fresh _ _ _ hfresh]
    | BUY =>
      rcases hbuy hside with ⟨hps, hmem, hmin, la, hla, hlt, hlvl⟩
      rw [if_neg (by simp)]
      unfold OrderBook.cancel
      rw [if_pos hrem]
      unfold OrderBook.remove_volume_from_level
      dsimp only
      rw [dictGet_dictSet_self]
      dsimp only
      rw [if_pos rfl]
      rw [if_neg (by rw [hside]; simp)]
      rw [if_pos ⟨hside, hmin⟩]
      rw [insort_pop_round o.price b.bid_prices hps hmem]
      dsimp only
      rw [dictErase_dictSet_fresh _ _ _ hfresh]
  · rw [if_neg hrem]
    unfold OrderBook.cancel
    dsimp only
    rw [if_neg hrem]

def rtWitBook : OrderBook := OrderBook.new Instrument.ETF 0 0

def rtWitOrder : Order := ⟨7, Instrument.ETF, Lifespan.GOOD_FOR_DAY, Side.BUY, 100, 5, 0, 5⟩

theorem insert_cancel_round_trip_witness :
    insertThenCancel rtWitBook rtWitOrder = some rtWitBook :=
  insert_cancel_round_trip rtWitBook rtWitOrder (by decide) (by decide)
    (fun h => absurd h (by decide))
    (fun _ => ⟨by decide, by decide, by decide,
      ⟨-MAXIMUM_ASK, by decide, by decide, fun _ => ⟨⟨[], 0⟩, by decide⟩⟩⟩)

/-- The books for the counterexample to the unamended claim C8: a GFD BUY
at a price where another order already rests. -/
def rtCexBook : OrderBook :=
  { ask_prices := [-MAXIMUM_ASK]
    bid_prices := [MINIMUM_BID, 100]
    instrument := Instrument.ETF
    last_traded_price := none
    levels := [(MINIMUM_BID, ⟨[], 0⟩),
               (100, ⟨[⟨1, Instrument.ETF, Lifespan.GOOD_FOR_DAY, Side.BUY, 100, 5, 0, 5⟩], 5⟩),
               (MAXIMUM_ASK, ⟨[], 0⟩)]
    maker_fee := 0
    taker_fee := 0 }

def rtCexOrder : Order := ⟨2, Instrument.ETF, Lifespan.GOOD_FOR_DAY, Side.BUY, 100, 3, 0, 3⟩

/-- Counterexample to claim C8 as stated: inserting a non-crossing GFD
order at a price where another order already rests and cancelling it does
NOT restore the pre-insert book (the cancelled order's entry stays in the
level queue; in Python it remains there with zero remaining volume). -/
theorem insert_cancel_round_trip_cex :
    ¬ insertThenCancel rtCexBook rtCexOrder = some rtCexBook := by decide

theorem trade_level_core_facts {maker taker : ℚ} {instr : Instrument} {o : Order}
    {lvl : Level} {bp : ℤ} {o1 : Order} {lvl1 : Level} {evs : List BookEvent}
    (h : trade_level_core maker taker instr o lvl bp = some (o1, lvl1, evs)) :
    (∀ e ∈ evs, e.isFillOrTrade = true) ∧ o1.volume = o.volume ∧
    o1.lifespan = o.lifespan ∧ o1.client_order_id = o.client_order_id ∧
    o1.side = o.side ∧ o1.price = o.price := by
  unfold trade_level_core at h
  rcases hloop : tradeLoopGo maker bp o.remaining_volume lvl.total_volume
      lvl.order_queue with _ | ⟨remaining, total, queue, levs⟩
  · rw [hloop] at h; exact absurd h (by simp)
  rw [hloop] at h
  simp only [Option.some.injEq, Prod.mk.injEq] at h
  obtain ⟨ho1, hlvl1, hevs⟩ := h
  subst ho1 hlvl1 hevs
  refine ⟨?_, rfl, rfl, rfl, rfl, rfl⟩
  intro e he
  simp only [List.mem_append, List.mem_cons, List.mem_singleton] at he
  rcases he with he | he | he | he
  · rcases tradeLoopGo_events hloop e he with ⟨q, hq, hq0, v, f, he'⟩
    subst he'
    rfl
  · subst he; rfl
  · subst he; rfl
  · simp at he

theorem tradeAskGo_facts {maker taker : ℚ} {instr : Instrument} :
    ∀ {rev : List ℤ} {lv : List (ℤ × Level)} {lt : Option ℤ} {o : Order}
      {res : List ℤ × List (ℤ × Level) × Option ℤ × Order × List BookEvent},
      tradeAskGo maker taker instr rev lv lt o = some res →
      (∀ e ∈ res.2.2.2.2, e.isFillOrTrade = true) ∧ res.2.2.2.1.volume = o.volume ∧
      res.2.2.2.1.lifespan = o.lifespan ∧
      res.2.2.2.1.client_order_id = o.client_order_id ∧
      res.2.2.2.1.side = o.side ∧ res.2.2.2.1.price = o.price := by
  intro rev
  induction rev with
  | nil => intro lv lt o res h; exact absurd h (by simp [tradeAskGo])
  | cons best revRest ih =>
    intro lv lt o res h
    unfold tradeAskGo at h
    rcases hlv : dictGet lv best with _ | level
    · rw [hlv] at h; exact absurd h (by simp)
    rw [hlv] at h
    dsimp only at h
    by_cases hg : 0 < o.remaining_volume ∧ o.price ≤ best ∧ 0 < level.total_volume
    · rw [if_pos hg] at h
      rcases hcore : trade_level_core maker taker instr o level best
          with _ | ⟨o1, lvl1, evs⟩
      · rw [hcore] at h; exact absurd h (by simp)
      rw [hcore] at h
      dsimp only at h
      rcases trade_level_core_facts hcore with ⟨hevs, hv, hl, hc, hs, hp⟩
      by_cases hdel : lvl1.total_volume = 0 ∧ MINIMUM_BID < best
      · rw [if_pos hdel] at h
        rcases hrec : tradeAskGo maker taker instr revRest
            (dictErase (dictSet lv best lvl1) best) (some best) o1 with _ | res'
        · rw [hrec] at h; exact absurd h (by simp)
        rw [hrec] at h
        rcases res' with ⟨bp2, lv2, lt2, o2, evs2⟩
        simp only [Option.some.injEq] at h
        subst h
        rcases ih hrec with ⟨hevs2, hv2, hl2, hc2, hs2, hp2⟩
        refine ⟨?_, by rw [hv2, hv], by rw [hl2, hl], by rw [hc2, hc],
          by rw [hs2, hs], by rw [hp2, hp]⟩
        intro e he
        rcases List.mem_append.mp he with he | he
        · exact hevs e he
        · exact hevs2 e he
      · rw [if_neg hdel] at h
        simp only [Option.some.injEq] at h
        subst h
        exact ⟨hevs, hv, hl, hc, hs, hp⟩
    · rw [if_neg hg] at h
      simp only [Option.some.injEq] at h
      subst h
      exact ⟨by intro e he; simp at he, rfl, rfl, rfl, rfl, rfl⟩

theorem tradeBidGo_facts {maker taker : ℚ} {instr : Instrument} :
    ∀ {rev : List ℤ} {lv : List (ℤ × Level)} {lt : Option ℤ} {o : Order}
      {res : List ℤ × List (ℤ × Level) × Option ℤ × Order × List BookEvent},
      tradeBidGo maker taker instr rev lv lt o = some res →
      (∀ e ∈ res.2.2.2.2, e.isFillOrTrade = true) ∧ res.2.2.2.1.volume = o.volume ∧
      res.2.2.2.1.lifespan = o.lifespan ∧
      res.2.2.2.1.client_order_id = o.client_order_id ∧
      res.2.2.2.1.side = o.side ∧ res.2.2.2.1.price = o.price := by
  intro rev
  induction rev with
  | nil => intro lv lt o res h; exact absurd h (by simp [tradeBidGo])
  | cons neg_ask revRest ih =>
    intro lv lt o res h
    unfold tradeBidGo at h
    dsimp only at h
    rcases hlv : dictGet lv (-neg_ask) with _ | level
    · rw [hlv] at h; exact absurd h (by simp)
    rw [hlv] at h
    dsimp only at h
    by_cases hg : 0 < o.remaining_volume ∧ -neg_ask ≤ o.price ∧ 0 < level.total_volume
    · rw [if_pos hg] at h
      rcases hcore : trade_level_core maker taker instr o level (-neg_ask)
          with _ | ⟨o1, lvl1, evs⟩
      · rw [hcore] at h; exact absurd h (by simp)
      rw [hcore] at h
      dsimp only at h
      rcases trade_level_core_facts hcore with ⟨hevs, hv, hl, hc, hs, hp⟩
      by_cases hdel : lvl1.total_volume = 0 ∧ -neg_ask < MAXIMUM_ASK
      · rw [if_pos hdel] at h
        rcases hrec : tradeBidGo maker taker instr revRest
            (dictErase (dictSet lv (-neg_ask) lvl1) (-neg_ask)) (some (-neg_ask)) o1
            with _ | res'
        · rw [hrec] at h; exact absurd h (by simp)
        rw [hrec] at h
        rcases res' with ⟨ap2, lv2, lt2, o2, evs2⟩
        simp only [Option.some.injEq] at h
        subst h
        rcases ih hrec with ⟨hevs2, hv2, hl2, hc2, hs2, hp2⟩
        refine ⟨?_, by rw [hv2, hv], by rw [hl2, hl], by rw [hc2, hc],
          by rw [hs2, hs], by rw [hp2, hp]⟩
        intro e he
        rcases List.mem_append.mp he with he | he
        · exact hevs e he
        · exact hevs2 e he
      · rw [if_neg hdel] at h
        simp only [Option.some.injEq] at h
        subst h
        exact ⟨hevs, hv, hl, hc, hs, hp⟩
    · rw [if_neg hg] at h
      simp only [Option.some.injEq] at h
      subst h
      exact ⟨by intro e he; simp at he, rfl, rfl, rfl, rfl, rfl⟩

theorem insertCross_facts {b : OrderBook} {o : Order} {b1 : OrderBook} {o1 : Order}
    {evs1 : List BookEvent} (h : insertCross b o = some (b1, o1, evs1)) :
    (∀ e ∈ evs1, e.isFillOrTrade = true) ∧ o1.volume = o.volume ∧
    o1.lifespan = o.lifespan ∧ o1.client_order_id = o.client_order_id := by
  unfold insertCross at h
  revert h
  cases o.side with
  | SELL =>
    intro h
    rcases hbb : b.bid_prices.getLast? with _ | bb
    · rw [hbb] at h; exact absurd h (by simp)
    rw [hbb] at h
    dsimp only at h
    by_cases hc : o.price ≤ bb
    · rw [if_pos hc] at h
      unfold OrderBook.trade_ask at h
      rcases hgo : tradeAskGo b.maker_fee b.taker_fee b.instrument
          b.bid_prices.reverse b.levels b.last_traded_price o
          with _ | ⟨bp, lv, lt, o2, evs⟩
      · rw [hgo] at h; exact absurd h (by simp)
      rw [hgo] at h
      dsimp only at h
      simp only [Option.some.injEq, Prod.mk.injEq] at h
      obtain ⟨hb1, ho1, hevs⟩ := h
      subst ho1 hevs
      rcases tradeAskGo_facts hgo with ⟨he, hv, hl, hcid, _, _⟩
      exact ⟨he, hv, hl, hcid⟩
    · rw [if_neg hc] at h
      simp only [Option.some.injEq, Prod.mk.injEq] at h
      obtain ⟨hb1, ho1, hevs⟩ := h
      subst ho1 hevs
      exact ⟨by intro e he; simp at he, rfl, rfl, rfl⟩
  | BUY =>
    intro h
    rcases hla : b.ask_prices.getLast? with _ | la
    · rw [hla] at h; exact absurd h (by simp)
    rw [hla] at h
    dsimp only at h
    by_cases hc : la ≤ o.price
    · rw [if_pos hc] at h
      unfold OrderBook.trade_bid at h
      rcases hgo : tradeBidGo b.maker_fee b.taker_fee b.instrument
          b.ask_prices.reverse b.levels b.last_traded_price o
          with _ | ⟨ap, lv, lt, o2, evs⟩
      · rw [hgo] at h; exact absurd h (by simp)
      rw [hgo] at h
      dsimp only at h
      simp only [Option.some.injEq, Prod.mk.injEq] at h
      obtain ⟨hb1, ho1, hevs⟩ := h
      subst ho1 hevs
      rcases tradeBidGo_facts hgo with ⟨he, hv, hl, hcid, _, _⟩
      exact ⟨he, hv, hl, hcid⟩
    · rw [if_neg hc] at h
      simp only [Option.some.injEq, Prod.mk.injEq] at h
      obtain ⟨hb1, ho1, hevs⟩ := h
      subst ho1 hevs
      exact ⟨by intro e he; simp at he, rfl, rfl, rfl⟩

theorem place_snd (b : OrderBook) (o : Order) :
    (OrderBook.place b o).2 = [BookEvent.orderPlaced o] := by
  unfold OrderBook.place
  rcases h : dictGet b.levels o.price with _ | lvl <;> rfl

/-- Claim C6: a GOOD_FOR_DAY order that rests after insertion produces
exactly one placed callback, and the competitor forwards a placed order
status for it only when no partial fill occurred during the insertion;
a partially filled residual that rests produces no placed status (the
fill callbacks emitted during matching are the only notifications). -/
theorem placed_claim (b : OrderBook) (o : Order) (c : Competitor)
    (b' : OrderBook) (o' : Order) (evs : List BookEvent)
    (hGFD : o.lifespan = Lifespan.GOOD_FOR_DAY)
    (hfill : o.remaining_volume = o.volume)
    (hch : c.exec_channel = true)
    (hres : b.insert o = some (b', o', evs))
    (hrest : 0 < o'.remaining_volume) :
    o'.volume = o.volume ∧
    evs.filter BookEvent.isPlaced = [BookEvent.orderPlaced o'] ∧
    (evs.map (fun e => match e with
      | BookEvent.orderPlaced ord => c.on_order_placed_outs ord
      | _ => [])).flatten =
      (if o'.remaining_volume = o'.volume
        then [CompOut.orderStatus o'.client_order_id 0 o'.remaining_volume o'.total_fees]
        else []) := by
  unfold OrderBook.insert at hres
  rcases hstep : insertCross b o with _ | ⟨b1, o1, evs1⟩
  · rw [hstep] at hres; exact absurd hres (by simp)
  rw [hstep] at hres
  dsimp only at hres
  rcases insertCross_facts hstep with ⟨hevs1, hvol, hlife, hcid⟩
  by_cases hrem : 0 < o1.remaining_volume
  · rw [if_pos hrem] at hres
    rw [if_neg (by rw [hlife, hGFD]; intro hcontra; exact absurd hcontra (by simp))] at hres
    have hplmap : ∀ (pl : OrderBook × List BookEvent),
        pl.2 = [BookEvent.orderPlaced o1] →
        some (pl.1, o1, evs1 ++ pl.2) = some (b', o', evs) →
        o'.volume = o.volume ∧
        evs.filter BookEvent.isPlaced = [BookEvent.orderPlaced o'] ∧
        (evs.map (fun e => match e with
          | BookEvent.orderPlaced ord => c.on_order_placed_outs ord
          | _ => [])).flatten =
          (if o'.remaining_volume = o'.volume
            then [CompOut.orderStatus o'.client_order_id 0 o'.remaining_volume
              o'.total_fees]
            else []) := by
      intro pl hpl2 hmatch
      simp only [Option.some.injEq, Prod.mk.injEq] at hmatch
      obtain ⟨hb', ho', hevs'⟩ := hmatch
      subst ho'
      rw [hpl2] at hevs'
      subst hevs'
      have hfilt : evs1.filter BookEvent.isPlaced = [] := by
        rw [List.filter_eq_nil]
        intro e he
        have := hevs1 e he
        cases e <;> simp_all [BookEvent.isFillOrTrade, BookEvent.isPlaced]
      have hmap1 : (evs1.map (fun e => match e with
          | BookEvent.orderPlaced ord => c.on_order_placed_outs ord
          | _ => [])).flatten = [] := by
        rw [List.flatten_eq_nil_iff]
        intro l hl
        rcases List.mem_map.mp hl with ⟨e, he, hel⟩
        have := hevs1 e he
        cases e <;> simp_all [BookEvent.isFillOrTrade]
      refine ⟨by rw [hvol], ?_, ?_⟩
      · rw [List.filter_append, hfilt]
        simp [BookEvent.isPlaced]
      · rw [List.map_append, List.flatten_append, hmap1]
        simp only [List.nil_append, List.map_cons, List.map_nil, List.flatten_cons,
          List.flatten_nil, List.append_nil]
        unfold Competitor.on_order_placed_outs
        rw [hch]
        by_cases hq : o1.remaining_volume = o1.volume
        · rw [if_pos ⟨hq.symm, rfl⟩, if_pos hq]
        · rw [if_neg (by intro hcontra; exact hq hcontra.1.symm), if_neg hq]
    exact hplmap (b1.place o1) (place_snd b1 o1) hres
  · rw [if_neg hrem] at hres
    simp only [Option.some.injEq, Prod.mk.injEq] at hres
    obtain ⟨hb', ho', hevs'⟩ := hres
    subst ho'
    exact absurd hrest hrem

def c6Book : OrderBook :=
  { ask_prices := [-MAXIMUM_ASK]
    bid_prices := [MINIMUM_BID, 9900]
    instrument := Instrument.ETF
    last_traded_price := none
    levels := [(MINIMUM_BID, ⟨[], 0⟩),
               (9900, ⟨[⟨1, Instrument.ETF, Lifespan.GOOD_FOR_DAY, Side.BUY, 9900, 5, 0, 5⟩], 5⟩),
               (MAXIMUM_ASK, ⟨[], 0⟩)]
    maker_fee := 0
    taker_fee := 0 }

def c6Order : Order := ⟨2, Instrument.ETF, Lifespan.GOOD_FOR_DAY, Side.SELL, 9900, 8, 0, 8⟩

def c6OrderAfter : Order := ⟨2, Instrument.ETF, Lifespan.GOOD_FOR_DAY, Side.SELL, 9900, 3, 0, 8⟩

def c6BookAfter : OrderBook :=
  { ask_prices := [-MAXIMUM_ASK, -9900]
    bid_prices := [MINIMUM_BID]
    instrument := Instrument.ETF
    last_traded_price := some 9900
    levels := [(MINIMUM_BID, ⟨[], 0⟩), (9900, ⟨[c6OrderAfter], 3⟩), (MAXIMUM_ASK, ⟨[], 0⟩)]
    maker_fee := 0
    taker_fee := 0 }

def c6Evs : List BookEvent :=
  [BookEvent.orderFilled ⟨1, Instrument.ETF, Lifespan.GOOD_FOR_DAY, Side.BUY, 9900, 0, 0, 5⟩
    9900 5 0,
   BookEvent.orderFilled c6OrderAfter 9900 5 0,
   BookEvent.trade Instrument.ETF 9900 5,
   BookEvent.orderPlaced c6OrderAfter]

def c6Comp : Competitor :=
  { account := initialAccount 100 0
    active_volume := 0
    active_volume_limit := 200
    etf_book := OrderBook.new Instrument.ETF 0 0
    future_book := OrderBook.new Instrument.FUTURE 0 0
    buy_prices := []
    exec_channel := true
    last_client_order_id := -1
    order_count_limit := 10
    orders := []
    position_limit := 100
    sell_prices := []
    tick_size := 100 }

unseal Rat.add Rat.mul Rat.sub Rat.inv in
theorem placed_claim_witness :
    c6OrderAfter.volume = c6Order.volume ∧
    c6Evs.filter BookEvent.isPlaced = [BookEvent.orderPlaced c6OrderAfter] ∧
    (c6Evs.map (fun e => match e with
      | BookEvent.orderPlaced ord => c6Comp.on_order_placed_outs ord
      | _ => [])).flatten =
      (if c6OrderAfter.remaining_volume = c6OrderAfter.volume
        then [CompOut.orderStatus c6OrderAfter.client_order_id 0
          c6OrderAfter.remaining_volume c6OrderAfter.total_fees]
        else []) :=
  placed_claim c6Book c6Order c6Comp c6BookAfter c6OrderAfter c6Evs
    (by decide) (by decide) (by decide) (by decide) (by decide)

/-- Claim C5: an insert request failing any of the competitor's validation
checks produces a single ERROR message, does not close the channel, and
leaves the order book, live-order map, active volume and per-side price
sets unchanged (only `last_client_order_id` may advance, which the source
updates before the remaining checks). -/
theorem insert_validation_claim (c : Competitor) (now : ℚ)
    (cid side price volume lifespan : ℤ)
    (hch : c.exec_channel = true)
    (htick : c.tick_size ≠ 0)
    (hinv : ¬ insertValid c now cid side price volume lifespan) :
    ∃ msg lcid,
      c.on_insert_message now cid side price volume lifespan =
        some ({ c with last_client_order_id := lcid }, [CompOut.error cid msg]) := by
  unfold Competitor.on_insert_message
  by_cases h1 : cid ≤ c.last_client_order_id
  · rw [if_pos h1, if_pos hch]
    exact ⟨"duplicate or out-of-order client_order_id", c.last_client_order_id, rfl⟩
  rw [if_neg h1]
  dsimp only
  by_cases h2 : side ≠ 1 ∧ side ≠ 0
  · rw [if_pos h2, if_pos hch]
    exact ⟨"not a valid side", cid, rfl⟩
  rw [if_neg h2]
  by_cases h3 : lifespan ≠ 0 ∧ lifespan ≠ 1
  · rw [if_pos h3, if_pos hch]
    exact ⟨"not a valid lifespan", cid, rfl⟩
  rw [if_neg h3]
  rw [if_neg htick]
  by_cases h4 : price % c.tick_size ≠ 0
  · rw [if_pos h4, if_pos hch]
    exact ⟨"price is not a multiple of tick size", cid, rfl⟩
  rw [if_neg h4]
  by_cases h5 : (c.orders.length : ℤ) = c.order_count_limit
  · rw [if_pos h5, if_pos hch]
    exact ⟨"order rejected: active order count limit breached", cid, rfl⟩
  rw [if_neg h5]
  by_cases h6 : volume < 1
  · rw [if_pos h6, if_pos hch]
    exact ⟨"order rejected: invalid volume", cid, rfl⟩
  rw [if_neg h6]
  by_cases h7 : c.active_volume_limit < c.active_volume + volume
  · rw [if_pos h7, if_pos hch]
    exact ⟨"order rejected: active order volume limit breached", cid, rfl⟩
  rw [if_neg h7]
  by_cases h8 : now = 0
  · rw [if_pos h8, if_pos hch]
    exact ⟨"order rejected: market not yet open", cid, rfl⟩
  rw [if_neg h8]
  by_cases h9 : (side = 1 ∧ c.sell_prices ≠ [] ∧ -(c.sell_prices.getLastD 0) ≤ price) ∨
      (side = 0 ∧ c.buy_prices ≠ [] ∧ price ≤ c.buy_prices.getLastD 0)
  · rw [if_pos h9, if_pos hch]
    exact ⟨"order rejected: in cross with an existing order", cid, rfl⟩
  exfalso
  refine hinv ⟨by omega, by omega, by omega, by omega, h5, by omega, by omega, h8, h9⟩

theorem insert_validation_claim_witness :
    c6Comp.on_insert_message 1 0 1 100 0 1 =
      some ({ c6Comp with last_client_order_id := 0 },
        [CompOut.error 0 "order rejected: invalid volume"]) := by
  have h := insert_validation_claim c6Comp 1 0 1 100 0 1 (by decide) (by decide) (by decide)
  decide
